import Mathlib

/-!
A shallow embedding of `pgm.h`: the PGM codec and its pixel accessors.

The C header `pgm.h` reads, writes and edits grayscale images in the Netpbm
PGM format (`P2` ASCII, `P5` binary).  This development translates its
functions to Lean and proves properties of the translation.

Conventions of the embedding.

* Target platform: x86-64 System V with glibc.  `char` is a signed 8-bit type,
  `int` is 32 bits wide, `size_t` is 64 bits wide and the host is
  little-endian.
* A `FILE` opened for reading is the list of the bytes not yet consumed; a
  byte is a natural number below 256.  A `FILE` opened for writing is the list
  of the bytes emitted so far; writes never fail.  `fopen` is taken to have
  succeeded.
* `errno` is threaded explicitly.  As in glibc, reaching end of file or a
  matching failure leaves `errno` untouched; `malloc` failure stores `ENOMEM`
  and an overflowing numeric conversion stores `ERANGE`.
* `malloc` is an oracle `alloc : Nat → Bool` telling whether a request of that
  many bytes is granted.  A freshly allocated array is represented by the
  cells written so far, in order.
* An access outside the allocated sample array has no defined behaviour; the
  functions that can perform one return `Option`, with `none` for such an
  access.
-/

namespace Pgm

/-! ## Data model -/

/-- The two encodings, `typedef enum { P2, P5 } PGMType`. -/
inductive PGMType where
  | P2
  | P5
  deriving DecidableEq, Repr

/-- The image buffer, `struct PGM`.  `data` is the content of the array that
the `data` pointer designates; `width`, `height`, `maxVal` are `uint16_t`. -/
structure PGM where
  data : List Nat
  width : Nat
  height : Nat
  maxVal : Nat
  deriving DecidableEq, Repr

/-- Value of a `ReadPGM` call: the `int` returned and the caller's `PGM`
object after the call. -/
structure Outcome where
  ret : Int
  pgm : PGM
  deriving DecidableEq, Repr

/-- `EDOM` of `<errno.h>` on Linux. -/
def EDOM : Int := 33

/-- `ENOMEM` of `<errno.h>` on Linux. -/
def ENOMEM : Int := 12

/-- `ERANGE` of `<errno.h>` on Linux. -/
def ERANGE : Int := 34

/-- `EOF` of `<stdio.h>`. -/
def EOF : Int := -1

/-- `UINT8_MAX`. -/
def UINT8_MAX : Nat := 255

/-! ## Machine arithmetic -/

/-- Reduction of a mathematical integer to the 32-bit two's complement `int`:
the result of an `int` operation that wraps on overflow. -/
def wrapInt32 (x : Int) : Int := (2147483648 + x) % 4294967296 - 2147483648

/-- Conversion of an `int` to the 64-bit `size_t`. -/
def toSizeT (x : Int) : Nat := (x % 18446744073709551616).toNat

/-- The expression `pgm->width * pgm->height` assigned to a `size_t`: both
operands are promoted to `int`, multiplied there, and the `int` result is
converted to `size_t`. -/
def imageSize (pgm : PGM) : Nat :=
  toSizeT (wrapInt32 ((pgm.width : Int) * (pgm.height : Int)))

/-- Conversion of an `int` holding a `getc` result to the signed `char`. -/
def toChar (r : Int) : Int := (r + 128) % 256 - 128

/-! ## The stdio calls used by the decoder -/

/-- The call `getc(fp)`: the next byte, or `EOF` at end of file. -/
def getc : List Nat → Int × List Nat
  | [] => (EOF, [])
  | b :: fp => ((b : Int), fp)

/-- The call `ungetc(c, fp)` for a `char` value `c`: the byte
`(unsigned char)c` is pushed back. -/
def ungetc (c : Int) (fp : List Nat) : List Nat := (c % 256).toNat :: fp

/-- The predicate `isspace` in the C locale. -/
def isspace (b : Nat) : Bool := b == 32 || (9 ≤ b && b ≤ 13)

/-- The predicate `isdigit`. -/
def isdigit (b : Nat) : Bool := 48 ≤ b && b ≤ 57

/-- Consumption of a run of decimal digits with accumulation of its value;
the first byte that is not a digit stays in the stream. -/
def scanDigits : List Nat → Nat → Nat × List Nat
  | [], acc => (acc, [])
  | b :: fp, acc =>
    if isdigit b then scanDigits fp (acc * 10 + (b - 48)) else (acc, b :: fp)

/-- The call `fscanf(fp, "%hu", &x)`.  White space is skipped, an optional
sign is read, then a non-empty run of digits.  The digits are converted as by
`strtoul` (saturating at `ULONG_MAX` with `errno = ERANGE`, negated modulo
`2^64` after a minus sign) and the result is stored into the `unsigned short`.
`none` stands for every return value other than 1 (end of file or a matching
failure); `errno` is unchanged then.  Otherwise the result lists the value
stored, the new `errno` and the rest of the stream. -/
def fscanfHu (errno : Int) (fp : List Nat) : Option (Nat × Int × List Nat) :=
  match fp.dropWhile isspace with
  | [] => none
  | b :: rest =>
    let body := if b == 45 || b == 43 then rest else b :: rest
    match body with
    | [] => none
    | d :: _ =>
      if isdigit d then
        let r := scanDigits body 0
        if 18446744073709551616 ≤ r.1 then
          some (18446744073709551615 % 65536, ERANGE, r.2)
        else if b == 45 then
          some ((18446744073709551616 - r.1) % 18446744073709551616 % 65536, errno, r.2)
        else
          some (r.1 % 65536, errno, r.2)
      else none

/-! ## Decoder -/

/-- The sample loop of `readPGMAsciiData`: `n` samples remain to be read,
`acc` holds the cells of `pgm->data` written so far.  Returns the `int`
result and the cells written. -/
def readAsciiLoop : Nat → Int → List Nat → List Nat → Int × List Nat
  | 0, _, _, acc => (0, acc)
  | n + 1, errno, fp, acc =>
    match fscanfHu errno fp with
    | none => (errno, acc)
    | some (v, e, fp1) => readAsciiLoop n e fp1 (acc ++ [v])

/-- Translation of `readPGMAsciiData`. -/
def readPGMAsciiData (alloc : Nat → Bool) (errno : Int) (pgm : PGM)
    (fp : List Nat) : Outcome :=
  let size := imageSize pgm
  if alloc (2 * size % 18446744073709551616) then
    let r := readAsciiLoop size errno fp []
    ⟨r.1, { pgm with data := r.2 }⟩
  else
    ⟨ENOMEM, { pgm with data := [] }⟩

/-- The 8-bit sample loop of `readPGMBinaryData`: one `fread` of a single
byte per sample, the byte zero-extended to 16 bits. -/
def readByteLoop (errno : Int) : Nat → List Nat → List Nat → Int × List Nat
  | 0, _, acc => (0, acc)
  | _ + 1, [], acc => (errno, acc)
  | n + 1, b :: fp, acc => readByteLoop errno n fp (acc ++ [b])

/-- Decoding of consecutive 16-bit items in host (little-endian) order; a
trailing odd byte is not a complete item. -/
def readWords : List Nat → List Nat
  | lo :: hi :: fp => (lo + 256 * hi) :: readWords fp
  | _ => []

/-- The call `fread(pgm->data, sizeof(uint16_t), size, fp)`: the items
stored, whose number is the value returned. -/
def freadWords (size : Nat) (fp : List Nat) : List Nat :=
  readWords (fp.take (2 * min size (fp.length / 2)))

/-- Translation of `readPGMBinaryData`. -/
def readPGMBinaryData (alloc : Nat → Bool) (errno : Int) (pgm : PGM)
    (fp : List Nat) : Outcome :=
  let size := imageSize pgm
  if alloc (2 * size % 18446744073709551616) then
    if pgm.maxVal > UINT8_MAX then
      let items := freadWords size fp
      if items.length ≠ size then ⟨errno, { pgm with data := items }⟩
      else ⟨0, { pgm with data := items }⟩
    else
      let r := readByteLoop errno size fp []
      ⟨r.1, { pgm with data := r.2 }⟩
  else
    ⟨ENOMEM, { pgm with data := [] }⟩

/-- The white-space loop that opens `readPGMMetadata`,
`do { c = getc(fp); if (c == EOF) return EDOM; } while (c is blank)`,
followed by `ungetc(c, fp)`.  `none` stands for the `return EDOM`. -/
def skipHeaderSpace : List Nat → Option (List Nat)
  | [] => none
  | b :: fp =>
    let c := toChar (b : Int)
    if c = EOF then none
    else if c = 32 ∨ c = 9 ∨ c = 10 ∨ c = 13 then skipHeaderSpace fp
    else some (ungetc c fp)

/-- Translation of `readPGMMetadata`. -/
def readPGMMetadata (alloc : Nat → Bool) (errno : Int) (pgm : PGM)
    (fp : List Nat) (type : PGMType) : Outcome :=
  match skipHeaderSpace fp with
  | none => ⟨EDOM, pgm⟩
  | some fp1 =>
    match fscanfHu errno fp1 with
    | none => ⟨errno, pgm⟩
    | some (w, e1, fp2) =>
      let pgm1 := { pgm with width := w }
      match fscanfHu e1 fp2 with
      | none => ⟨e1, pgm1⟩
      | some (h, e2, fp3) =>
        let pgm2 := { pgm1 with height := h }
        match fscanfHu e2 fp3 with
        | none => ⟨e2, pgm2⟩
        | some (m, e3, fp4) =>
          let pgm3 := { pgm2 with maxVal := m }
          if m = 0 then ⟨EDOM, pgm3⟩
          else
            let g := getc fp4
            if g.1 = EOF then ⟨e3, pgm3⟩
            else if type = PGMType.P2 then readPGMAsciiData alloc e3 pgm3 g.2
            else readPGMBinaryData alloc e3 pgm3 g.2

/-- Translation of `ReadPGM`, from the first `getc` on: `errno` is the value
of `errno` at that point, `pgm` the caller's object and `fp` the content of
the file. -/
def ReadPGM (alloc : Nat → Bool) (errno : Int) (pgm : PGM) (fp : List Nat) :
    Outcome :=
  let g := getc fp
  let c := toChar g.1
  if c = EOF then ⟨errno, pgm⟩
  else if c ≠ 80 then ⟨EDOM, pgm⟩
  else
    let g2 := getc g.2
    let c2 := toChar g2.1
    if c2 = 50 then readPGMMetadata alloc errno pgm g2.2 PGMType.P2
    else if c2 = 53 then readPGMMetadata alloc errno pgm g2.2 PGMType.P5
    else if c2 = EOF then ⟨errno, pgm⟩
    else ⟨EDOM, pgm⟩

/-! ## Encoder -/

/-- Decimal digits of `n`, most significant first, as ASCII codes; `fuel`
bounds the number of digits. -/
def decimal : Nat → Nat → List Nat
  | 0, _ => []
  | fuel + 1, n =>
    if n < 10 then [48 + n] else decimal fuel (n / 10) ++ [48 + n % 10]

/-- The conversion `%hu` of `fprintf`: the argument is converted to
`unsigned short` and printed in decimal (at most five digits). -/
def fmtHu (x : Nat) : List Nat := decimal 5 (x % 65536)

/-- The call `fprintf(fp, "P?\n%hu %hu\n%hu\n", width, height, maxVal)`, with
`magic` the second byte of the magic number. -/
def fprintfHeader (magic : Nat) (pgm : PGM) : List Nat :=
  [80, magic, 10] ++ fmtHu pgm.width ++ [32] ++ fmtHu pgm.height ++ [10]
    ++ fmtHu pgm.maxVal ++ [10]

/-- The 8-bit loop of `writePGMBinary`: `fwrite(&pgm->data[i], 1, 1, fp)`
emits the first byte of the little-endian 16-bit cell.  `n` iterations remain,
`i` is the loop index, `out` the bytes emitted so far. -/
def writeByteLoop (data : List Nat) : Nat → Nat → List Nat → Option (List Nat)
  | 0, _, out => some out
  | n + 1, i, out =>
    match data[i]? with
    | none => none
    | some x => writeByteLoop data n (i + 1) (out ++ [x % 256])

/-- The bytes of consecutive 16-bit cells in host (little-endian) order. -/
def wordBytes : List Nat → List Nat
  | [] => []
  | x :: xs => x % 256 :: x / 256 % 256 :: wordBytes xs

/-- The call `fwrite(pgm->data, sizeof(uint16_t), size, fp)`: the bytes of the
first `size` cells; `none` when the array has fewer cells. -/
def fwriteWords (data : List Nat) (size : Nat) : Option (List Nat) :=
  if size ≤ data.length then some (wordBytes (data.take size)) else none

/-- Translation of `writePGMBinary`: the `int` returned and the bytes
written. -/
def writePGMBinary (pgm : PGM) : Option (Int × List Nat) :=
  let size := imageSize pgm
  let hdr := fprintfHeader 53 pgm
  if pgm.maxVal > UINT8_MAX then
    match fwriteWords pgm.data size with
    | none => none
    | some bytes => some (0, hdr ++ bytes)
  else
    match writeByteLoop pgm.data size 0 hdr with
    | none => none
    | some out => some (0, out)

/-- The inner loop of `writePGMAscii`,
`for (j = 0; j < bound; j++) fprintf(fp, "%hu ", pgm->data[i * width + j])`,
with `base = i * width`; `n` iterations remain. -/
def writeAsciiCells (data : List Nat) (base : Nat) :
    Nat → Nat → List Nat → Option (List Nat)
  | 0, _, out => some out
  | n + 1, j, out =>
    match data[(base + j) % 18446744073709551616]? with
    | none => none
    | some x => writeAsciiCells data base n (j + 1) (out ++ fmtHu x ++ [32])

/-- The body of the outer loop of `writePGMAscii` for row `i`: the inner loop
with bound `(uint16_t)(pgm->width - 1)`, then
`fprintf(fp, "%hu\n", pgm->data[((i + 1) * pgm->width) - 1])`.  The index
arithmetic is that of `size_t`; subtracting one is adding `2^16 - 1`,
respectively `2^64 - 1`, modulo the width of the type. -/
def writeAsciiRow (pgm : PGM) (i : Nat) (out : List Nat) : Option (List Nat) :=
  match writeAsciiCells pgm.data (i * pgm.width % 18446744073709551616)
      ((65535 + pgm.width) % 65536) 0 out with
  | none => none
  | some out1 =>
    match pgm.data[(18446744073709551615 + (i + 1) * pgm.width)
        % 18446744073709551616]? with
    | none => none
    | some x => some (out1 ++ fmtHu x ++ [10])

/-- The outer loop of `writePGMAscii` over the rows; `n` rows remain, `i` is
the row index. -/
def writeAsciiRows (pgm : PGM) : Nat → Nat → List Nat → Option (List Nat)
  | 0, _, out => some out
  | n + 1, i, out =>
    match writeAsciiRow pgm i out with
    | none => none
    | some out1 => writeAsciiRows pgm n (i + 1) out1

/-- Translation of `writePGMAscii`: the `int` returned and the bytes
written. -/
def writePGMAscii (pgm : PGM) : Option (Int × List Nat) :=
  match writeAsciiRows pgm pgm.height 0 (fprintfHeader 50 pgm) with
  | none => none
  | some out => some (0, out)

/-- Translation of `WritePGM`, after the successful `fopen`. -/
def WritePGM (pgm : PGM) (type : PGMType) : Option (Int × List Nat) :=
  if type = PGMType.P2 then writePGMAscii pgm else writePGMBinary pgm

/-! ## Pixel accessors -/

/-- The bounds test shared by the four accessors,
`pgm->height >= row || pgm->width >= column || row <= 0 || column <= 0`,
evaluated in `int`. -/
def rejects (pgm : PGM) (row column : Int) : Bool :=
  decide ((pgm.height : Int) ≥ row) || decide ((pgm.width : Int) ≥ column)
    || decide (row ≤ 0) || decide (column ≤ 0)

/-- The index expression `row * pgm->width + column`, evaluated in `int`; with
an `int16_t` row and column and a `uint16_t` width it stays below `2^31`. -/
def pixelIndex (pgm : PGM) (row column : Int) : Int :=
  row * (pgm.width : Int) + column

/-- Translation of `SetPGMPixel`: the `int` returned and the buffer after the
call; `none` when the store falls outside the sample array. -/
def SetPGMPixel (pgm : PGM) (row column : Int) (pixel : Nat) :
    Option (Int × PGM) :=
  if rejects pgm row column then some (1, pgm)
  else
    let idx := (pixelIndex pgm row column).toNat
    if idx < pgm.data.length then
      let pgm1 := { pgm with data := pgm.data.set idx pixel }
      if pixel > pgm1.maxVal then some (0, { pgm1 with maxVal := pixel })
      else some (0, pgm1)
    else none

/-- Translation of `GetPGMPixel`: the `int` returned and the value stored
through `pixel`, if any; `none` when the load falls outside the sample
array. -/
def GetPGMPixel (pgm : PGM) (row column : Int) : Option (Int × Option Nat) :=
  if rejects pgm row column then some (1, none)
  else
    match pgm.data[(pixelIndex pgm row column).toNat]? with
    | none => none
    | some x => some (0, some x)

/-- `UINT16_MAX`, the `int` constant 65535 of `<stdint.h>`. -/
def UINT16_MAX : Int := 65535

/-- Conversion of an `int` to `uint16_t`. -/
def toUInt16 (x : Int) : Nat := (x % 65536).toNat

/-- The definition `RENORMALIZE(x, oldMax, newMax)`, `((x * newMax) / oldMax)`, on
operands promoted to `int`: the product is reduced to 32 bits and the division
truncates toward zero.  `none` stands for the division by zero. -/
def RENORMALIZE (x oldMax newMax : Int) : Option Int :=
  if oldMax = 0 then none else some (Int.tdiv (wrapInt32 (x * newMax)) oldMax)

/-- Translation of `GetPGMPixelNormalized`: the `int` returned and the value
stored through `pixel`, if any; `none` when the load falls outside the sample
array or `maxVal` is 0. -/
def GetPGMPixelNormalized (pgm : PGM) (row column : Int) :
    Option (Int × Option Nat) :=
  if rejects pgm row column then some (1, none)
  else
    match pgm.data[(pixelIndex pgm row column).toNat]? with
    | none => none
    | some x =>
      match RENORMALIZE (x : Int) (pgm.maxVal : Int) UINT16_MAX with
      | none => none
      | some q => some (0, some (toUInt16 q))

/-- Translation of `SetPGMPixelNormalized`: the `int` returned and the buffer
after the call; `none` when the store falls outside the sample array. -/
def SetPGMPixelNormalized (pgm : PGM) (row column : Int) (pixel : Nat) :
    Option (Int × PGM) :=
  if rejects pgm row column then some (1, pgm)
  else
    let idx := (pixelIndex pgm row column).toNat
    match RENORMALIZE (pixel : Int) UINT16_MAX (pgm.maxVal : Int) with
    | none => none
    | some q =>
      if idx < pgm.data.length then
        some (0, { pgm with data := pgm.data.set idx (toUInt16 q) })
      else none

/-- Translation of `SetPGMMaxVal`. -/
def SetPGMMaxVal (pgm : PGM) (maxVal : Nat) : PGM := { pgm with maxVal := maxVal }

/-- One iteration of the loop of `NormalizePGMToNewMaxVal`,
`pgm->data[i] = RENORMALIZE(pgm->data[i], pgm->maxVal, maxVal)`; `none` when
cell `i` is outside the sample array or the old `maxVal` is 0. -/
def normalizeCell (oldMax newMax : Int) (i : Nat) (data : List Nat) :
    Option (List Nat) :=
  match data[i]? with
  | none => none
  | some x =>
    match RENORMALIZE (x : Int) oldMax newMax with
    | none => none
    | some q => some (data.set i (toUInt16 q))

/-- The loop of `NormalizePGMToNewMaxVal`; `n` iterations remain, `i` is the
loop index. -/
def normalizeLoop (oldMax newMax : Int) : Nat → Nat → List Nat → Option (List Nat)
  | 0, _, data => some data
  | n + 1, i, data =>
    match normalizeCell oldMax newMax i data with
    | none => none
    | some data1 => normalizeLoop oldMax newMax n (i + 1) data1

/-- Translation of `NormalizePGMToNewMaxVal`: the buffer after the call. -/
def NormalizePGMToNewMaxVal (pgm : PGM) (maxVal : Nat) : Option PGM :=
  let size := imageSize pgm
  match normalizeLoop (pgm.maxVal : Int) (maxVal : Int) size 0 pgm.data with
  | none => none
  | some data => some { pgm with data := data, maxVal := maxVal }

/-- Translation of `InitPGM`.  The three fields are stored, then
`calloc(width * height, sizeof(uint16_t))` is called with the `int` product
converted to `size_t`; it fails when the byte count does not fit `size_t` or
the request is not granted, and `errno` is `ENOMEM` then. -/
def InitPGM (alloc : Nat → Bool) (pgm : PGM) (width height maxVal : Nat) : Outcome :=
  let pgm1 : PGM := { pgm with height := height, width := width, maxVal := maxVal }
  let n := imageSize pgm1
  if 2 * n < 18446744073709551616 ∧ alloc (2 * n) = true then
    ⟨0, { pgm1 with data := List.replicate n 0 }⟩
  else
    ⟨ENOMEM, { pgm1 with data := [] }⟩

/-! ## Auxiliary definitions used in the statements -/

/-- Value of a digit string read from the left. -/
def digitsValue (ds : List Nat) (acc : Nat) : Nat :=
  ds.foldl (fun a d => a * 10 + (d - 48)) acc

/-- The four blanks that the header loop of `readPGMMetadata` skips. -/
def isHeaderBlank (b : Nat) : Bool := b == 32 || b == 9 || b == 10 || b == 13

/-- One text line of the ASCII encoding in the words of the format
description: the decimal renderings of the samples of a row, separated by one
space, then a newline. -/
def rowLine (xs : List Nat) : List Nat :=
  List.intercalate [32] (xs.map fmtHu) ++ [10]

/-- The rows of an image: row `r` holds the samples
`data[r * width .. r * width + width - 1]`. -/
def imageRows (data : List Nat) (width height : Nat) : List (List Nat) :=
  (List.range height).map (fun r => (data.drop (r * width)).take width)

/-- The ASCII encoding in the words of the format description: the line
`P2`, the line `<width> <height>`, the line `<maxVal>`, then one line per
row. -/
def asciiLayout (pgm : PGM) : List Nat :=
  [80, 50, 10] ++ fmtHu pgm.width ++ [32] ++ fmtHu pgm.height ++ [10]
    ++ fmtHu pgm.maxVal ++ [10]
    ++ ((imageRows pgm.data pgm.width pgm.height).map rowLine).flatten

/-- Samples each followed by one space, the output of the inner loop of
`writePGMAscii`. -/
def spaced : List Nat → List Nat
  | [] => []
  | x :: xs => fmtHu x ++ 32 :: spaced xs

/-- Decimal rendering of a natural number as ASCII codes, from the digits of
`Nat.digits`: most significant digit first, `0` rendered as the single
digit. -/
def decimalText (n : Nat) : List Nat :=
  if n = 0 then [48] else (Nat.digits 10 n).reverse.map (fun d => 48 + d)

/-- One text line of the ASCII encoding in the words of the format
description: the decimal renderings of the samples of a row, separated by
exactly one space, then the newline. -/
def specRowLine (xs : List Nat) : List Nat :=
  List.intercalate [32] (xs.map decimalText) ++ [10]

/-- The ASCII encoding in the words of the format description: the line
`P2`, the line `<width> <height>`, the line `<maxVal>`, then one line per
row. -/
def specAsciiLayout (pgm : PGM) : List Nat :=
  [80, 50, 10] ++ decimalText pgm.width ++ [32] ++ decimalText pgm.height ++ [10]
    ++ decimalText pgm.maxVal ++ [10]
    ++ ((imageRows pgm.data pgm.width pgm.height).map specRowLine).flatten

/-- The fields and samples of the buffer are values of type `uint16_t`. -/
def PGM.InRange (pgm : PGM) : Prop :=
  pgm.width < 65536 ∧ pgm.height < 65536 ∧ pgm.maxVal < 65536
    ∧ ∀ x ∈ pgm.data, x < 65536

instance (pgm : PGM) : Decidable pgm.InRange := by
  unfold PGM.InRange
  infer_instance

/-- The sample that `RENORMALIZE` followed by the store into a `uint16_t`
produces from the sample `x`. -/
def rescaled (oldMax newMax x : Nat) : Nat :=
  toUInt16 (Int.tdiv (wrapInt32 ((x : Int) * (newMax : Int))) (oldMax : Int))

/-! ## Machine arithmetic and scanning lemmas -/

theorem imageSize_eq (pgm : PGM) (h : pgm.width * pgm.height < 2147483648) :
    imageSize pgm = pgm.width * pgm.height := by
  unfold imageSize toSizeT wrapInt32
  have h1 : ((pgm.width : Int) * (pgm.height : Int)) = ((pgm.width * pgm.height : Nat) : Int) := by
    push_cast; rfl
  rw [h1]
  generalize pgm.width * pgm.height = n at h
  omega

theorem scanDigits_append (ds rest : List Nat) (acc : Nat)
    (hd : ∀ d ∈ ds, isdigit d = true) :
    scanDigits (ds ++ rest) acc = scanDigits rest (digitsValue ds acc) := by
  induction ds generalizing acc with
  | nil => rfl
  | cons d ds ih =>
    have h1 : isdigit d = true := hd d (List.mem_cons_self _ _)
    have h2 : ∀ x ∈ ds, isdigit x = true := fun x hx => hd x (List.mem_cons_of_mem _ hx)
    simp only [List.cons_append, scanDigits, h1, if_true, digitsValue, List.foldl_cons]
    exact ih _ h2

theorem scanDigits_stop (rest : List Nat) (acc : Nat)
    (hr : ∀ b ∈ rest.head?, isdigit b = false) :
    scanDigits rest acc = (acc, rest) := by
  cases rest with
  | nil => rfl
  | cons b fp =>
    have : isdigit b = false := hr b (by simp)
    simp [scanDigits, this]

theorem decimal_isdigit (fuel n : Nat) : ∀ d ∈ decimal fuel n, isdigit d = true := by
  induction fuel generalizing n with
  | zero => intro d hd; simp [decimal] at hd
  | succ f ih =>
    intro d hd
    unfold decimal at hd
    split at hd
    · simp at hd; subst hd; simp [isdigit]; omega
    · rw [List.mem_append] at hd
      rcases hd with hd | hd
      · exact ih _ d hd
      · simp at hd; subst hd; simp [isdigit]; omega

theorem decimal_value (fuel n : Nat) (h : n < 10 ^ fuel) :
    digitsValue (decimal fuel n) 0 = n := by
  induction fuel generalizing n with
  | zero => simp at h; subst h; rfl
  | succ f ih =>
    unfold decimal
    split
    · simp [digitsValue]
    · have h3 : n / 10 < 10 ^ f := by
        rw [Nat.div_lt_iff_lt_mul (by norm_num)]
        rw [pow_succ] at h; exact h
      have := ih (n / 10) h3
      unfold digitsValue at this ⊢
      rw [List.foldl_append, this]
      simp
      omega

theorem decimal_ne_nil (fuel n : Nat) : decimal (fuel + 1) n ≠ [] := by
  unfold decimal
  split <;> simp

theorem fmtHu_isdigit (x : Nat) : ∀ d ∈ fmtHu x, isdigit d = true :=
  decimal_isdigit 5 _

theorem fmtHu_value (x : Nat) (h : x < 65536) : digitsValue (fmtHu x) 0 = x := by
  unfold fmtHu
  rw [Nat.mod_eq_of_lt h]
  exact decimal_value 5 x (by omega)

theorem fmtHu_cons (x : Nat) : ∃ d tl, fmtHu x = d :: tl ∧ isdigit d = true := by
  have hne : fmtHu x ≠ [] := decimal_ne_nil 4 _
  cases hx : fmtHu x with
  | nil => exact absurd hx hne
  | cons d tl =>
    refine ⟨d, tl, rfl, ?_⟩
    exact fmtHu_isdigit x d (by rw [hx]; simp)

theorem isdigit_not_isspace (d : Nat) (h : isdigit d = true) : isspace d = false := by
  simp [isdigit, isspace] at *
  omega

theorem dropWhile_isspace_append (ws rest : List Nat)
    (hws : ∀ b ∈ ws, isspace b = true) :
    (ws ++ rest).dropWhile isspace = rest.dropWhile isspace := by
  induction ws with
  | nil => rfl
  | cons b ws ih =>
    have h1 : isspace b = true := hws b (List.mem_cons_self _ _)
    simp only [List.cons_append, List.dropWhile_cons, h1, if_true]
    exact ih (fun x hx => hws x (List.mem_cons_of_mem _ hx))

/-- Scanning a rendered number: leading white space is skipped, the number is
returned, the stream is left at the first byte after the digits. -/
theorem fscanfHu_fmtHu (errno : Int) (ws rest : List Nat) (x : Nat)
    (hx : x < 65536) (hws : ∀ b ∈ ws, isspace b = true)
    (hr : ∀ b ∈ rest.head?, isdigit b = false) :
    fscanfHu errno (ws ++ (fmtHu x ++ rest)) = some (x, errno, rest) := by
  obtain ⟨d, tl, hdt, hd⟩ := fmtHu_cons x
  have hval : scanDigits (fmtHu x ++ rest) 0 = (x, rest) := by
    rw [scanDigits_append _ _ _ (fmtHu_isdigit x), fmtHu_value x hx]
    exact scanDigits_stop rest x hr
  have hsp : isspace d = false := isdigit_not_isspace d hd
  have h45 : (d == 45) = false := by
    simp [isdigit] at hd; simp; omega
  have h43 : (d == 43) = false := by
    simp [isdigit] at hd; simp; omega
  unfold fscanfHu
  rw [dropWhile_isspace_append ws _ hws]
  rw [hdt] at hval ⊢
  simp only [List.cons_append] at hval
  simp only [List.cons_append, List.dropWhile_cons, hsp]
  simp only [h45, h43, hd, hval, Bool.or_self, Bool.false_eq_true, if_false, if_true]
  rw [if_neg (by omega), Nat.mod_eq_of_lt hx]


theorem skipHeaderSpace_blanks (ws rest : List Nat) (d : Nat)
    (hws : ∀ b ∈ ws, isHeaderBlank b = true) (hd : isdigit d = true) :
    skipHeaderSpace (ws ++ d :: rest) = some (d :: rest) := by
  induction ws with
  | nil =>
    simp only [isdigit, Bool.and_eq_true, decide_eq_true_eq] at hd
    simp only [List.nil_append, skipHeaderSpace, toChar, EOF, ungetc]
    rw [if_neg (by omega), if_neg (by omega)]
    congr 2
    omega
  | cons b ws ih =>
    have hb : isHeaderBlank b = true := hws b (List.mem_cons_self _ _)
    simp only [isHeaderBlank, Bool.or_eq_true, beq_iff_eq] at hb
    simp only [List.cons_append, skipHeaderSpace, toChar, EOF]
    rw [if_neg (by omega), if_pos (by omega)]
    exact ih (fun x hx => hws x (List.mem_cons_of_mem _ hx))

theorem isHeaderBlank_isspace (b : Nat) (h : isHeaderBlank b = true) :
    isspace b = true := by
  simp only [isHeaderBlank, Bool.or_eq_true, beq_iff_eq] at h
  simp only [isspace, Bool.or_eq_true, beq_iff_eq, Bool.and_eq_true, decide_eq_true_eq]
  omega

theorem isspace_not_isdigit (b : Nat) (h : isspace b = true) : isdigit b = false := by
  simp only [isspace, Bool.or_eq_true, beq_iff_eq, Bool.and_eq_true, decide_eq_true_eq] at h
  simp only [isdigit, Bool.and_eq_false_iff, decide_eq_false_iff_not]
  omega

theorem head_not_digit_of_blanks (ws rest : List Nat) (hne : ws ≠ [])
    (hws : ∀ b ∈ ws, isspace b = true) :
    ∀ b ∈ (ws ++ rest).head?, isdigit b = false := by
  cases ws with
  | nil => exact absurd rfl hne
  | cons a ws =>
    intro b hb
    simp only [List.cons_append, List.head?_cons, Option.mem_def, Option.some.injEq] at hb
    subst hb
    exact isspace_not_isdigit _ (hws _ (List.mem_cons_self _ _))

/-- Decoding of a header: blanks, width, blanks, height, blanks, maximum
value, then one byte that is not a digit.  The three fields are stored and
the sample decoder of the variant is entered on the bytes that follow. -/
theorem readPGMMetadata_header (alloc : Nat → Bool) (errno : Int) (pgm : PGM)
    (type : PGMType) (ws0 ws1 ws2 body : List Nat) (w h m b : Nat)
    (hw : w < 65536) (hh : h < 65536) (hm : m < 65536) (hm0 : m ≠ 0)
    (h0 : ∀ x ∈ ws0, isHeaderBlank x = true)
    (h1 : ∀ x ∈ ws1, isspace x = true) (n1 : ws1 ≠ [])
    (h2 : ∀ x ∈ ws2, isspace x = true) (n2 : ws2 ≠ [])
    (hb : isdigit b = false) :
    readPGMMetadata alloc errno pgm
        (ws0 ++ (fmtHu w ++ (ws1 ++ (fmtHu h ++ (ws2 ++ (fmtHu m ++ b :: body)))))) type
      = if type = PGMType.P2 then readPGMAsciiData alloc errno ⟨pgm.data, w, h, m⟩ body
        else readPGMBinaryData alloc errno ⟨pgm.data, w, h, m⟩ body := by
  obtain ⟨d, tl, hdt, hd⟩ := fmtHu_cons w
  have e0 : skipHeaderSpace (ws0 ++ (fmtHu w ++ (ws1 ++ (fmtHu h ++ (ws2 ++ (fmtHu m ++ b :: body))))))
      = some (fmtHu w ++ (ws1 ++ (fmtHu h ++ (ws2 ++ (fmtHu m ++ b :: body))))) := by
    rw [hdt]
    exact skipHeaderSpace_blanks ws0 _ d h0 hd
  have e1 := fscanfHu_fmtHu errno [] (ws1 ++ (fmtHu h ++ (ws2 ++ (fmtHu m ++ b :: body)))) w hw
    (by simp) (head_not_digit_of_blanks ws1 _ n1 h1)
  have e2 := fscanfHu_fmtHu errno ws1 (ws2 ++ (fmtHu m ++ b :: body)) h hh h1
    (head_not_digit_of_blanks ws2 _ n2 h2)
  have e3 := fscanfHu_fmtHu errno ws2 (b :: body) m hm h2
    (by intro x hx; simp at hx; subst hx; exact hb)
  rw [List.nil_append] at e1
  unfold readPGMMetadata
  simp only [e0, e1, e2, e3, hm0, if_false, getc, EOF]
  rw [if_neg (by omega)]

/-! ## Binary sample data -/

theorem readByteLoop_exact (errno : Int) (bs acc : List Nat) :
    readByteLoop errno bs.length bs acc = (0, acc ++ bs) := by
  induction bs generalizing acc with
  | nil => simp [readByteLoop]
  | cons b bs ih =>
    simp only [List.length_cons, readByteLoop]
    rw [ih]
    simp

theorem writeByteLoop_eq (data : List Nat) (n i : Nat) (out : List Nat)
    (h : i + n ≤ data.length) :
    writeByteLoop data n i out
      = some (out ++ ((data.drop i).take n).map (fun x => x % 256)) := by
  induction n generalizing i out with
  | zero => simp [writeByteLoop]
  | succ n ih =>
    have hi : i < data.length := by omega
    simp only [writeByteLoop, List.getElem?_eq_getElem hi]
    rw [ih (i + 1) _ (by omega)]
    rw [List.drop_eq_getElem_cons hi, List.take_succ_cons, List.map_cons,
      List.append_assoc, List.singleton_append]

theorem writeByteLoop_overrun (data : List Nat) (n i : Nat) (out : List Nat)
    (hi : i ≤ data.length) (h : data.length < i + n) :
    writeByteLoop data n i out = none := by
  induction n generalizing i out with
  | zero => omega
  | succ n ih =>
    by_cases hlt : i < data.length
    · simp only [writeByteLoop, List.getElem?_eq_getElem hlt]
      exact ih (i + 1) _ (by omega) (by omega)
    · have : data[i]? = none := List.getElem?_eq_none (by omega)
      simp only [writeByteLoop, this]

theorem readWords_wordBytes (data : List Nat) (h : ∀ x ∈ data, x < 65536) :
    readWords (wordBytes data) = data := by
  induction data with
  | nil => rfl
  | cons x xs ih =>
    have hx : x < 65536 := h x (List.mem_cons_self _ _)
    simp only [wordBytes, readWords]
    rw [ih (fun y hy => h y (List.mem_cons_of_mem _ hy))]
    congr 1
    omega

theorem length_wordBytes (data : List Nat) :
    (wordBytes data).length = 2 * data.length := by
  induction data with
  | nil => rfl
  | cons x xs ih =>
    simp only [wordBytes, List.length_cons, ih]
    omega

theorem freadWords_wordBytes (data : List Nat) (h : ∀ x ∈ data, x < 65536) :
    freadWords data.length (wordBytes data) = data := by
  unfold freadWords
  have : 2 * min data.length ((wordBytes data).length / 2) = (wordBytes data).length := by
    rw [length_wordBytes]; omega
  rw [this, List.take_length]
  exact readWords_wordBytes data h

theorem map_mod_of_le (data : List Nat) (h : ∀ x ∈ data, x < 256) :
    data.map (fun x => x % 256) = data := by
  induction data with
  | nil => rfl
  | cons x xs ih =>
    rw [List.map_cons, ih (fun y hy => h y (List.mem_cons_of_mem _ hy)),
      Nat.mod_eq_of_lt (h x (List.mem_cons_self _ _))]

/-- Layout of the binary encoding when the pixel count fits an `int`: the
header, then one low byte per sample (`maxVal <= 255`) or two bytes per
sample in host order (`maxVal > 255`). -/
theorem writePGMBinary_layout (pgm : PGM)
    (hlen : pgm.data.length = pgm.width * pgm.height)
    (hsz : pgm.width * pgm.height < 2147483648) :
    writePGMBinary pgm = some (0, fprintfHeader 53 pgm ++
      (if pgm.maxVal > 255 then wordBytes pgm.data
       else pgm.data.map (fun x => x % 256))) := by
  unfold writePGMBinary
  simp only [imageSize_eq pgm hsz, UINT8_MAX]
  by_cases hm : pgm.maxVal > 255
  · simp only [hm, if_true, fwriteWords, ← hlen, le_refl, List.take_length]
  · simp only [hm, if_false]
    rw [writeByteLoop_eq _ _ _ _ (by omega), ← hlen, List.drop_zero, List.take_length]

/-- Decoding of the bytes that `writePGMBinary` emits for a buffer whose
samples respect `maxVal`. -/
theorem ReadPGM_writePGMBinary (alloc : Nat → Bool) (errno : Int) (pgm0 pgm : PGM)
    (hw : pgm.width < 65536) (hh : pgm.height < 65536) (hm : pgm.maxVal < 65536)
    (hmax : 1 ≤ pgm.maxVal)
    (hlen : pgm.data.length = pgm.width * pgm.height)
    (hsz : pgm.width * pgm.height < 2147483648)
    (hs : ∀ x ∈ pgm.data, x ≤ pgm.maxVal)
    (halloc : alloc (2 * (pgm.width * pgm.height)) = true) :
    ReadPGM alloc errno pgm0 (fprintfHeader 53 pgm ++
      (if pgm.maxVal > 255 then wordBytes pgm.data
       else pgm.data.map (fun x => x % 256))) = ⟨0, pgm⟩ := by
  generalize hbody : (if pgm.maxVal > 255 then wordBytes pgm.data
       else pgm.data.map (fun x => x % 256)) = body
  have hsz2 : imageSize ⟨pgm0.data, pgm.width, pgm.height, pgm.maxVal⟩
      = pgm.width * pgm.height := imageSize_eq _ hsz
  have hhdr := readPGMMetadata_header alloc errno pgm0 PGMType.P5 [10] [32] [10] body
    pgm.width pgm.height pgm.maxVal 10 hw hh hm (by omega)
    (by decide) (by decide) (by decide) (by decide) (by decide) (by decide)
  have hstream : fprintfHeader 53 pgm ++ body
      = 80 :: 53 :: ([10] ++ (fmtHu pgm.width ++ ([32] ++ (fmtHu pgm.height ++ ([10]
          ++ (fmtHu pgm.maxVal ++ 10 :: body)))))) := by
    simp [fprintfHeader]
  rw [hstream]
  unfold ReadPGM
  simp only [getc, toChar, EOF]
  rw [if_neg (by decide), if_neg (by decide), if_neg (by decide), if_pos (by decide), hhdr]
  simp only [reduceCtorEq, if_false]
  unfold readPGMBinaryData
  simp only [hsz2, UINT8_MAX]
  rw [Nat.mod_eq_of_lt (by omega), halloc]
  simp only [if_true]
  by_cases hmv : pgm.maxVal > 255
  · simp only [hmv, if_true] at hbody ⊢
    subst hbody
    rw [← hlen, freadWords_wordBytes _ (fun x hx => by have := hs x hx; omega)]
    simp
  · simp only [hmv, if_false] at hbody ⊢
    subst hbody
    rw [map_mod_of_le _ (fun x hx => by have := hs x hx; omega), ← hlen, readByteLoop_exact]
    simp

/-! ## ASCII encoder -/

theorem rowLine_single (x : Nat) : rowLine [x] = fmtHu x ++ [10] := by
  simp [rowLine, List.intercalate, List.intersperse]

theorem rowLine_cons_cons (x y : Nat) (xs : List Nat) :
    rowLine (x :: y :: xs) = fmtHu x ++ 32 :: rowLine (y :: xs) := by
  simp [rowLine, List.intercalate, List.intersperse]

theorem rowLine_snoc (init : List Nat) (last : Nat) :
    rowLine (init ++ [last]) = spaced init ++ (fmtHu last ++ [10]) := by
  induction init with
  | nil => simp [rowLine_single, spaced]
  | cons x xs ih =>
    cases xs with
    | nil =>
      simp only [List.cons_append, List.nil_append, rowLine_cons_cons, rowLine_single, spaced,
        List.append_nil, List.append_assoc, List.cons_append]
    | cons y ys =>
      simp only [List.cons_append] at ih ⊢
      rw [rowLine_cons_cons, ih]
      simp only [spaced, List.append_assoc, List.cons_append]

theorem imageRows_succ (data : List Nat) (width n : Nat) :
    imageRows data width (n + 1)
      = data.take width :: imageRows (data.drop width) width n := by
  unfold imageRows
  rw [List.range_succ_eq_map, List.map_cons, List.map_map]
  simp only [Nat.zero_mul, List.drop_zero]
  congr 1
  apply List.map_congr_left
  intro r _
  simp only [Function.comp, List.drop_drop]
  congr 2
  rw [Nat.succ_mul, Nat.add_comm]

theorem writeAsciiCells_eq (data : List Nat) (base n j : Nat) (out : List Nat)
    (h : base + j + n ≤ data.length) (hb : data.length < 18446744073709551616) :
    writeAsciiCells data base n j out
      = some (out ++ spaced ((data.drop (base + j)).take n)) := by
  induction n generalizing j out with
  | zero => simp [writeAsciiCells, spaced]
  | succ n ih =>
    have hi : base + j < data.length := by omega
    simp only [writeAsciiCells]
    rw [Nat.mod_eq_of_lt (by omega), List.getElem?_eq_getElem hi]
    simp only
    rw [ih (j + 1) _ (by omega), List.drop_eq_getElem_cons hi, List.take_succ_cons]
    simp only [spaced, List.append_assoc, List.cons_append, List.nil_append]
    rfl

theorem take_succ_eq_snoc (l : List Nat) (k : Nat) (h : k < l.length) :
    l.take (k + 1) = l.take k ++ [l[k]] := by
  rw [List.take_succ, List.getElem?_eq_getElem h]
  rfl

theorem writeAsciiRow_eq (pgm : PGM) (i : Nat) (out : List Nat)
    (hw1 : 1 ≤ pgm.width) (hw : pgm.width < 65536)
    (h : (i + 1) * pgm.width ≤ pgm.data.length)
    (hb : pgm.data.length < 18446744073709551616) :
    writeAsciiRow pgm i out
      = some (out ++ rowLine ((pgm.data.drop (i * pgm.width)).take pgm.width)) := by
  have h2 : (i + 1) * pgm.width = i * pgm.width + pgm.width := Nat.succ_mul _ _
  rw [h2] at h
  unfold writeAsciiRow
  rw [h2]
  generalize i * pgm.width = a at *
  have hbase : a % 18446744073709551616 = a := by
    apply Nat.mod_eq_of_lt; omega
  have hbound : (65535 + pgm.width) % 65536 = pgm.width - 1 := by omega
  have hlast : (18446744073709551615 + (a + pgm.width)) % 18446744073709551616
      = a + (pgm.width - 1) := by omega
  have hlt : a + (pgm.width - 1) < pgm.data.length := by omega
  rw [hbase, hbound, hlast, writeAsciiCells_eq _ _ _ _ _ (by omega) hb,
    List.getElem?_eq_getElem hlt]
  simp only
  have hk : pgm.width - 1 < (pgm.data.drop a).length := by
    rw [List.length_drop]; omega
  have hrow := take_succ_eq_snoc (pgm.data.drop a) (pgm.width - 1) hk
  rw [show pgm.width - 1 + 1 = pgm.width by omega, List.getElem_drop] at hrow
  rw [hrow, rowLine_snoc, Nat.add_zero]
  simp only [List.append_assoc]

theorem writeAsciiRows_eq (pgm : PGM) (n i : Nat) (out : List Nat)
    (hw1 : 1 ≤ pgm.width) (hw : pgm.width < 65536)
    (h : (i + n) * pgm.width ≤ pgm.data.length)
    (hb : pgm.data.length < 18446744073709551616) :
    writeAsciiRows pgm n i out
      = some (out ++ ((imageRows (pgm.data.drop (i * pgm.width)) pgm.width n).map
          rowLine).flatten) := by
  induction n generalizing i out with
  | zero => simp [writeAsciiRows, imageRows]
  | succ n ih =>
    have h1 : (i + 1) * pgm.width ≤ pgm.data.length :=
      le_trans (Nat.mul_le_mul_right _ (by omega)) h
    simp only [writeAsciiRows]
    rw [writeAsciiRow_eq pgm i out hw1 hw h1 hb]
    simp only
    rw [ih (i + 1) _ (by rw [show i + 1 + n = i + (n + 1) by omega]; exact h)]
    rw [imageRows_succ, List.map_cons, List.flatten_cons, List.drop_drop, Nat.succ_mul]
    simp only [List.append_assoc]

/-! ## ASCII sample data -/

theorem head_cons_not_digit (b : Nat) (rest : List Nat) (hb : isdigit b = false) :
    ∀ x ∈ (b :: rest).head?, isdigit x = false := by
  intro x hx
  simp only [List.head?_cons, Option.mem_def, Option.some.injEq] at hx
  subst hx
  exact hb

theorem readAsciiLoop_rowLine (errno : Int) (xs : List Nat) (n : Nat)
    (ws rest acc : List Nat) (hne : xs ≠ [])
    (hx : ∀ x ∈ xs, x < 65536) (hws : ∀ b ∈ ws, isspace b = true) :
    readAsciiLoop (xs.length + n) errno (ws ++ (rowLine xs ++ rest)) acc
      = readAsciiLoop n errno (10 :: rest) (acc ++ xs) := by
  induction xs generalizing ws acc with
  | nil => exact absurd rfl hne
  | cons x xs ih =>
    have hx0 : x < 65536 := hx x (List.mem_cons_self _ _)
    cases xs with
    | nil =>
      have e := fscanfHu_fmtHu errno ws (10 :: rest) x hx0 hws
        (head_cons_not_digit _ _ (by decide))
      rw [rowLine_single]
      simp only [List.length_cons, List.length_nil, Nat.zero_add, List.append_assoc,
        List.singleton_append]
      rw [Nat.add_comm 1 n]
      simp only [readAsciiLoop, e]
    | cons y ys =>
      have e := fscanfHu_fmtHu errno ws (32 :: (rowLine (y :: ys) ++ rest)) x hx0 hws
        (head_cons_not_digit _ _ (by decide))
      rw [rowLine_cons_cons]
      simp only [List.append_assoc, List.cons_append]
      rw [show (x :: y :: ys).length + n = ((y :: ys).length + n) + 1 by
        simp only [List.length_cons]; omega]
      simp only [readAsciiLoop, e]
      have := ih [32] (acc ++ [x]) (by simp)
        (fun z hz => hx z (List.mem_cons_of_mem _ hz)) (by decide)
      simp only [List.singleton_append, List.append_assoc] at this
      exact this

theorem readAsciiLoop_rows (errno : Int) (width n : Nat) (data ws acc : List Nat)
    (hw1 : 1 ≤ width) (hlen : data.length = width * n)
    (hx : ∀ x ∈ data, x < 65536) (hws : ∀ b ∈ ws, isspace b = true) :
    readAsciiLoop (width * n) errno
        (ws ++ ((imageRows data width n).map rowLine).flatten) acc
      = (0, acc ++ data) := by
  induction n generalizing data ws acc with
  | zero =>
    have : data = [] := List.eq_nil_of_length_eq_zero (by simpa using hlen)
    subst this
    simp [readAsciiLoop]
  | succ n ih =>
    have hlt : width ≤ data.length := by
      rw [hlen, Nat.mul_succ]; omega
    have htake : (data.take width).length = width := by
      rw [List.length_take]; omega
    have hdrop : (data.drop width).length = width * n := by
      rw [List.length_drop, hlen, Nat.mul_succ]; omega
    have hne : data.take width ≠ [] := by
      intro h0
      rw [h0] at htake
      simp at htake
      omega
    rw [imageRows_succ, List.map_cons, List.flatten_cons]
    have hcount : width * (n + 1) = (data.take width).length + width * n := by
      rw [htake, Nat.mul_succ]; omega
    rw [hcount, readAsciiLoop_rowLine errno (data.take width) (width * n) ws _ acc hne
      (fun x h => hx x (List.mem_of_mem_take h)) hws]
    have := ih (data.drop width) [10] (acc ++ data.take width) hdrop
      (fun x h => hx x (List.mem_of_mem_drop h)) (by decide)
    simp only [List.singleton_append] at this
    rw [this, List.append_assoc, List.take_append_drop]

theorem fprintfHeader_P2 (pgm : PGM) :
    fprintfHeader 50 pgm = [80, 50, 10] ++ fmtHu pgm.width ++ [32] ++ fmtHu pgm.height
      ++ [10] ++ fmtHu pgm.maxVal ++ [10] := rfl

/-- Closed form of the ASCII encoder on a buffer of positive width. -/
theorem writePGMAscii_layout (pgm : PGM)
    (hw1 : 1 ≤ pgm.width) (hw : pgm.width < 65536) (hh : pgm.height < 65536)
    (hlen : pgm.data.length = pgm.width * pgm.height) :
    writePGMAscii pgm = some (0, asciiLayout pgm) := by
  have hb : pgm.data.length < 18446744073709551616 := by
    rw [hlen]
    calc pgm.width * pgm.height < 65536 * 65536 :=
          Nat.mul_lt_mul_of_lt_of_le hw (le_of_lt hh) (by omega)
      _ < 18446744073709551616 := by norm_num
  unfold writePGMAscii
  rw [writeAsciiRows_eq pgm pgm.height 0 _ hw1 hw
    (by rw [Nat.zero_add, hlen, Nat.mul_comm]) hb]
  simp only [Nat.zero_mul, List.drop_zero, asciiLayout, fprintfHeader_P2]

/-- Decoding of the ASCII layout of a buffer whose samples fit 16 bits. -/
theorem ReadPGM_asciiLayout (alloc : Nat → Bool) (errno : Int) (pgm0 pgm : PGM)
    (hw1 : 1 ≤ pgm.width)
    (hw : pgm.width < 65536) (hh : pgm.height < 65536) (hm : pgm.maxVal < 65536)
    (hmax : 1 ≤ pgm.maxVal)
    (hlen : pgm.data.length = pgm.width * pgm.height)
    (hsz : pgm.width * pgm.height < 2147483648)
    (hs : ∀ x ∈ pgm.data, x ≤ pgm.maxVal)
    (halloc : alloc (2 * (pgm.width * pgm.height)) = true) :
    ReadPGM alloc errno pgm0 (asciiLayout pgm) = ⟨0, pgm⟩ := by
  generalize hbody : ((imageRows pgm.data pgm.width pgm.height).map rowLine).flatten = body
  have hsz2 : imageSize ⟨pgm0.data, pgm.width, pgm.height, pgm.maxVal⟩
      = pgm.width * pgm.height := imageSize_eq _ hsz
  have hhdr := readPGMMetadata_header alloc errno pgm0 PGMType.P2 [10] [32] [10] body
    pgm.width pgm.height pgm.maxVal 10 hw hh hm (by omega)
    (by decide) (by decide) (by decide) (by decide) (by decide) (by decide)
  have hstream : asciiLayout pgm
      = 80 :: 50 :: ([10] ++ (fmtHu pgm.width ++ ([32] ++ (fmtHu pgm.height ++ ([10]
          ++ (fmtHu pgm.maxVal ++ 10 :: body)))))) := by
    simp [asciiLayout, hbody]
  rw [hstream]
  unfold ReadPGM
  simp only [getc, toChar, EOF]
  rw [if_neg (by decide), if_neg (by decide), if_pos (by decide), hhdr]
  simp only [if_true]
  unfold readPGMAsciiData
  simp only [hsz2]
  rw [Nat.mod_eq_of_lt (by omega), halloc]
  simp only [if_true]
  have := readAsciiLoop_rows errno pgm.width pgm.height pgm.data [] [] hw1 hlen
    (fun x hx => by have := hs x hx; omega) (by simp)
  rw [List.nil_append, hbody] at this
  rw [this]
  simp

/-! ## Decimal rendering and the layout in the words of the format -/

theorem decimal_eq_digits (fuel n : Nat) (h : n < 10 ^ fuel) (h0 : 0 < n) :
    decimal fuel n = (Nat.digits 10 n).reverse.map (fun d => 48 + d) := by
  induction fuel generalizing n with
  | zero => simp at h; omega
  | succ f ih =>
    unfold decimal
    split
    · rename_i hlt
      rw [Nat.digits_of_lt 10 n (by omega) hlt]
      rfl
    · rename_i hge
      have h3 : n / 10 < 10 ^ f := by
        rw [Nat.div_lt_iff_lt_mul (by norm_num)]
        rw [pow_succ] at h; exact h
      rw [ih (n / 10) h3 (by omega), Nat.digits_def' (by norm_num) h0]
      simp

theorem fmtHu_eq_decimalText (x : Nat) (h : x < 65536) : fmtHu x = decimalText x := by
  unfold fmtHu decimalText
  rw [Nat.mod_eq_of_lt h]
  by_cases h0 : x = 0
  · subst h0; rfl
  · rw [if_neg h0]
    exact decimal_eq_digits 5 x (by omega) (by omega)

theorem rowLine_eq_spec (xs : List Nat) (h : ∀ x ∈ xs, x < 65536) :
    rowLine xs = specRowLine xs := by
  unfold rowLine specRowLine
  rw [List.map_congr_left (fun x hx => fmtHu_eq_decimalText x (h x hx))]

theorem mem_imageRows (data : List Nat) (width height : Nat) (row : List Nat)
    (hr : row ∈ imageRows data width height) : ∀ x ∈ row, x ∈ data := by
  unfold imageRows at hr
  rw [List.mem_map] at hr
  obtain ⟨r, _, hr⟩ := hr
  subst hr
  intro x hx
  exact List.mem_of_mem_drop (List.mem_of_mem_take hx)

theorem asciiLayout_eq_spec (pgm : PGM) (h : pgm.InRange) :
    asciiLayout pgm = specAsciiLayout pgm := by
  obtain ⟨hw, hh, hm, hd⟩ := h
  unfold asciiLayout specAsciiLayout
  rw [fmtHu_eq_decimalText _ hw, fmtHu_eq_decimalText _ hh, fmtHu_eq_decimalText _ hm]
  congr 2
  apply List.map_congr_left
  intro row hrow
  exact rowLine_eq_spec row (fun x hx => hd x (mem_imageRows _ _ _ row hrow x hx))

theorem length_imageRows (data : List Nat) (width height : Nat) :
    (imageRows data width height).length = height := by
  simp [imageRows]

/-! ## Overrun of the binary encoder -/

theorem writePGMBinary_overrun (pgm : PGM) (hm : pgm.maxVal ≤ 255)
    (h : pgm.data.length < imageSize pgm) : writePGMBinary pgm = none := by
  unfold writePGMBinary
  simp only [UINT8_MAX]
  rw [if_neg (by omega), writeByteLoop_overrun _ _ _ _ (Nat.zero_le _) (by omega)]

/-! ## Truncated binary data and the worked example -/

theorem readByteLoop_short (errno : Int) (n : Nat) (bs acc : List Nat)
    (h : bs.length < n) : readByteLoop errno n bs acc = (errno, acc ++ bs) := by
  induction bs generalizing n acc with
  | nil =>
    cases n with
    | zero => simp at h
    | succ n => simp [readByteLoop]
  | cons b bs ih =>
    cases n with
    | zero => simp at h
    | succ n =>
      simp only [List.length_cons, Nat.add_lt_add_iff_right] at h
      simp only [readByteLoop]
      rw [ih n _ h]
      simp

/-- A binary stream with a well-formed header for 8-bit samples and fewer data
bytes than `width * height`: `ReadPGM` returns the value `errno` had at the
call, whatever it is, and leaves the samples read so far in the caller's
object. -/
theorem ReadPGM_truncated_binary (alloc : Nat → Bool) (errno : Int) (pgm0 : PGM)
    (w h m : Nat) (bytes : List Nat)
    (hw : w < 65536) (hh : h < 65536) (hm1 : 1 ≤ m) (hm : m ≤ 255)
    (hsz : w * h < 2147483648) (hshort : bytes.length < w * h)
    (halloc : alloc (2 * (w * h)) = true) :
    ReadPGM alloc errno pgm0 (fprintfHeader 53 ⟨[], w, h, m⟩ ++ bytes)
      = ⟨errno, ⟨bytes, w, h, m⟩⟩ := by
  have hsz2 : imageSize ⟨pgm0.data, w, h, m⟩ = w * h := imageSize_eq ⟨pgm0.data, w, h, m⟩ hsz
  have hhdr := readPGMMetadata_header alloc errno pgm0 PGMType.P5 [10] [32] [10] bytes
    w h m 10 hw hh (by omega) (by omega)
    (by decide) (by decide) (by decide) (by decide) (by decide) (by decide)
  have hstream : fprintfHeader 53 ⟨[], w, h, m⟩ ++ bytes
      = 80 :: 53 :: ([10] ++ (fmtHu w ++ ([32] ++ (fmtHu h ++ ([10]
          ++ (fmtHu m ++ 10 :: bytes)))))) := by
    simp [fprintfHeader]
  rw [hstream]
  unfold ReadPGM
  simp only [getc, toChar, EOF]
  rw [if_neg (by decide), if_neg (by decide), if_neg (by decide), if_pos (by decide), hhdr]
  simp only [reduceCtorEq, if_false]
  unfold readPGMBinaryData
  simp only [hsz2, UINT8_MAX]
  rw [Nat.mod_eq_of_lt (by omega), halloc]
  simp only [if_true]
  rw [if_neg (by omega), readByteLoop_short errno _ _ _ hshort]
  simp

/-- The end-to-end example of the format description: the 2x2 buffer with
`maxVal` 255 and samples `[0, 128, 255, 64]` is written as `P5\n2 2\n255\n`
followed by the bytes `0x00 0x80 0xFF 0x40`. -/
theorem writePGMBinary_example :
    writePGMBinary ⟨[0, 128, 255, 64], 2, 2, 255⟩
      = some (0, [80, 53, 10, 50, 32, 50, 10, 50, 53, 53, 10, 0, 128, 255, 64]) := by
  decide

/-! ## Round trips and encoder layouts -/

/-- C1. Binary round trip: for every buffer with `maxVal >= 1`, as many
samples as `width * height` (below `2^31`) and every sample at most `maxVal`,
`WritePGM` with variant `P5` returns 0 and `ReadPGM` on the bytes it wrote
returns 0 and leaves in the caller's object the same width, height, maxVal and
sample sequence, whether `maxVal <= 255` (one byte per sample) or
`maxVal > 255` (two bytes per sample); the allocation of the sample array is
granted. -/
theorem C1_binary_round_trip (alloc : Nat → Bool) (errno : Int) (pgm0 pgm : PGM)
    (hty : pgm.InRange) (hmax : 1 ≤ pgm.maxVal)
    (hlen : pgm.data.length = pgm.width * pgm.height)
    (hsz : pgm.width * pgm.height < 2 ^ 31)
    (hs : ∀ x ∈ pgm.data, x ≤ pgm.maxVal)
    (halloc : alloc (2 * (pgm.width * pgm.height)) = true) :
    ∃ bytes, WritePGM pgm PGMType.P5 = some (0, bytes)
      ∧ ReadPGM alloc errno pgm0 bytes = ⟨0, pgm⟩ := by
  obtain ⟨hw, hh, hm, _⟩ := hty
  have hsz1 : pgm.width * pgm.height < 2147483648 := by
    have : (2 : Nat) ^ 31 = 2147483648 := by norm_num
    omega
  refine ⟨_, ?_, ReadPGM_writePGMBinary alloc errno pgm0 pgm hw hh hm hmax hlen hsz1 hs halloc⟩
  unfold WritePGM
  rw [if_neg (by decide)]
  exact writePGMBinary_layout pgm hlen hsz1

/-- Witness of C1: the 2x2 buffer with `maxVal` 255 and samples
`[0, 128, 255, 64]`, decoded into an object that held another image. -/
theorem C1_binary_round_trip_witness :
    ∃ bytes, WritePGM ⟨[0, 128, 255, 64], 2, 2, 255⟩ PGMType.P5 = some (0, bytes)
      ∧ ReadPGM (fun _ => true) 0 ⟨[9], 1, 1, 9⟩ bytes
          = ⟨0, ⟨[0, 128, 255, 64], 2, 2, 255⟩⟩ :=
  C1_binary_round_trip (fun _ => true) 0 ⟨[9], 1, 1, 9⟩ ⟨[0, 128, 255, 64], 2, 2, 255⟩
    (by decide) (by decide) (by decide) (by decide) (by decide) rfl

/-- C2. ASCII round trip: for every buffer with `width >= 1`, `maxVal >= 1`,
as many samples as `width * height` (below `2^31`) and every sample at most
`maxVal`, `WritePGM` with variant `P2` returns 0 and `ReadPGM` on the bytes it
wrote returns 0 and leaves in the caller's object the same width, height,
maxVal and sample sequence; the allocation of the sample array is granted. -/
theorem C2_ascii_round_trip (alloc : Nat → Bool) (errno : Int) (pgm0 pgm : PGM)
    (hty : pgm.InRange) (hw1 : 1 ≤ pgm.width) (hmax : 1 ≤ pgm.maxVal)
    (hlen : pgm.data.length = pgm.width * pgm.height)
    (hsz : pgm.width * pgm.height < 2 ^ 31)
    (hs : ∀ x ∈ pgm.data, x ≤ pgm.maxVal)
    (halloc : alloc (2 * (pgm.width * pgm.height)) = true) :
    ∃ bytes, WritePGM pgm PGMType.P2 = some (0, bytes)
      ∧ ReadPGM alloc errno pgm0 bytes = ⟨0, pgm⟩ := by
  obtain ⟨hw, hh, hm, _⟩ := hty
  have hsz1 : pgm.width * pgm.height < 2147483648 := by
    have : (2 : Nat) ^ 31 = 2147483648 := by norm_num
    omega
  refine ⟨_, ?_, ReadPGM_asciiLayout alloc errno pgm0 pgm hw1 hw hh hm hmax hlen hsz1 hs halloc⟩
  unfold WritePGM
  rw [if_pos rfl]
  exact writePGMAscii_layout pgm hw1 hw hh hlen

/-- Witness of C2: a 3x2 buffer with 16-bit samples. -/
theorem C2_ascii_round_trip_witness :
    ∃ bytes, WritePGM ⟨[0, 128, 65535, 300, 7, 9], 3, 2, 65535⟩ PGMType.P2 = some (0, bytes)
      ∧ ReadPGM (fun _ => true) 0 ⟨[], 0, 0, 0⟩ bytes
          = ⟨0, ⟨[0, 128, 65535, 300, 7, 9], 3, 2, 65535⟩⟩ :=
  C2_ascii_round_trip (fun _ => true) 0 ⟨[], 0, 0, 0⟩ ⟨[0, 128, 65535, 300, 7, 9], 3, 2, 65535⟩
    (by decide) (by decide) (by decide) (by decide) (by decide) (by decide) rfl

/-- C3, at the failing input.  A 65535 x 65535 buffer with `maxVal` 255 holds
4294836225 samples.  The `int` product `width * height` wraps to -131071, the
loop bound `size` becomes 18446744073709420545, and the byte loop of
`writePGMBinary` runs past the last sample instead of stopping after
`width * height` bytes. -/
theorem C3_binary_size_overflow :
    imageSize ⟨List.replicate 4294836225 0, 65535, 65535, 255⟩ = 18446744073709420545
      ∧ writePGMBinary ⟨List.replicate 4294836225 0, 65535, 65535, 255⟩ = none := by
  have hsize : imageSize ⟨List.replicate 4294836225 0, 65535, 65535, 255⟩
      = 18446744073709420545 := by
    simp only [imageSize, wrapInt32, toSizeT]
    norm_num
    rfl
  refine ⟨hsize, writePGMBinary_overrun _ (by decide) ?_⟩
  rw [hsize]
  show (List.replicate 4294836225 0).length < 18446744073709420545
  rw [List.length_replicate]
  norm_num

/-- C4. Layout of the ASCII encoding: for every buffer with `width >= 1` and
as many samples as `width * height`, `writePGMAscii` returns 0 and writes the
line `P2`, the line `<width> <height>`, the line `<maxVal>`, then `height`
lines; line `r` is the decimal renderings of the samples
`r * width .. r * width + width - 1` separated by one space and ended by a
newline without a space before it. -/
theorem C4_ascii_layout (pgm : PGM) (hty : pgm.InRange) (hw1 : 1 ≤ pgm.width)
    (hlen : pgm.data.length = pgm.width * pgm.height) :
    writePGMAscii pgm = some (0, specAsciiLayout pgm)
      ∧ (imageRows pgm.data pgm.width pgm.height).length = pgm.height := by
  refine ⟨?_, length_imageRows _ _ _⟩
  rw [← asciiLayout_eq_spec pgm hty]
  exact writePGMAscii_layout pgm hw1 hty.1 hty.2.1 hlen

/-- Witness of C4: the 2x2 buffer with samples `[0, 128, 255, 64]`. -/
theorem C4_ascii_layout_witness :
    writePGMAscii ⟨[0, 128, 255, 64], 2, 2, 255⟩
        = some (0, specAsciiLayout ⟨[0, 128, 255, 64], 2, 2, 255⟩)
      ∧ (imageRows [0, 128, 255, 64] 2 2).length = 2 :=
  C4_ascii_layout ⟨[0, 128, 255, 64], 2, 2, 255⟩ (by decide) (by decide) (by decide)

/-! ## Decoder failures and the bounds test -/

theorem toChar_byte_eq (b : Nat) (c : Int) (hb : b < 256) (hc : 0 ≤ c) (hc2 : c < 128) :
    toChar (b : Int) = c ↔ (b : Int) = c := by
  unfold toChar
  omega

theorem toChar_byte_eof (b : Nat) (hb : b < 256) : toChar (b : Int) = EOF ↔ b = 255 := by
  unfold toChar EOF
  omega

/-- For valid coordinates the bounds test of the accessors answers
"reject". -/
theorem rejects_of_valid (pgm : PGM) (row column : Int)
    (hr : row < (pgm.height : Int)) : rejects pgm row column = true := by
  unfold rejects
  simp only [Bool.or_eq_true, decide_eq_true_eq]
  left; left; left
  omega

/-- C5, at the failing input.  The stream `P5\n2 2\n255\n` announces four
samples and supplies the two bytes `0x00 0x80`.  With `errno` equal to 0 at
the call, `ReadPGM` returns 0, the success code: the failed `fread` at end of
file leaves `errno` as it was and `readPGMBinaryData` returns that value. -/
theorem C5_truncated_binary_returns_zero :
    ReadPGM (fun _ => true) 0 ⟨[], 0, 0, 0⟩
        [80, 53, 10, 50, 32, 50, 10, 50, 53, 53, 10, 0, 128]
      = ⟨0, ⟨[0, 128], 2, 2, 255⟩⟩ := by
  decide

/-- C6, refuted as stated.  On the stream that ends right after `P`, and on a
stream whose first byte is `0xFF`, `ReadPGM` takes the end-of-file branch and
returns the current value of `errno` (here 0), not `EDOM`. -/
theorem C6_bad_magic_counterexample :
    (ReadPGM (fun _ => true) 0 ⟨[], 0, 0, 0⟩ [80]).ret = 0
      ∧ (ReadPGM (fun _ => true) 0 ⟨[], 0, 0, 0⟩ [80]).ret ≠ EDOM
      ∧ (ReadPGM (fun _ => true) 0 ⟨[], 0, 0, 0⟩ [255, 53]).ret ≠ EDOM := by
  decide

/-- C6, amended.  For every stream whose first byte is neither `P` nor `0xFF`,
and for every stream whose first byte is `P` and whose second byte is present
and is none of `2`, `5` and `0xFF`, `ReadPGM` returns `EDOM`; on the stream
that ends right after `P` it returns the value of `errno`. -/
theorem C6_bad_magic (alloc : Nat → Bool) (errno : Int) (pgm : PGM) :
    (∀ b rest, b < 256 → b ≠ 80 → b ≠ 255 →
        (ReadPGM alloc errno pgm (b :: rest)).ret = EDOM)
      ∧ (∀ c rest, c < 256 → c ≠ 50 → c ≠ 53 → c ≠ 255 →
        (ReadPGM alloc errno pgm (80 :: c :: rest)).ret = EDOM)
      ∧ (ReadPGM alloc errno pgm [80]).ret = errno := by
  refine ⟨?_, ?_, ?_⟩
  · intro b rest hb h80 h255
    have h1 : ¬ toChar (b : Int) = EOF := by
      rw [toChar_byte_eof b hb]; exact h255
    have h2 : toChar (b : Int) ≠ 80 := by
      rw [Ne, toChar_byte_eq b 80 hb (by decide) (by decide)]; omega
    simp only [ReadPGM, getc, h1, h2, if_false, ne_eq, not_false_eq_true, if_true]
  · intro c rest hc h50 h53 h255
    have h1 : ¬ toChar (c : Int) = EOF := by
      rw [toChar_byte_eof c hc]; exact h255
    have h2 : ¬ toChar (c : Int) = 50 := by
      rw [toChar_byte_eq c 50 hc (by decide) (by decide)]; omega
    have h3 : ¬ toChar (c : Int) = 53 := by
      rw [toChar_byte_eq c 53 hc (by decide) (by decide)]; omega
    have h4 : ¬ toChar ((80 : Nat) : Int) = EOF := by decide
    have h5 : ¬ toChar ((80 : Nat) : Int) ≠ 80 := by decide
    simp only [ReadPGM, getc, h1, h2, h3, h4, h5, if_false]
  · have h4 : ¬ toChar ((80 : Nat) : Int) = EOF := by decide
    have h5 : ¬ toChar ((80 : Nat) : Int) ≠ 80 := by decide
    have h6 : ¬ EOF = 50 := by decide
    have h7 : ¬ EOF = 53 := by decide
    have h8 : toChar EOF = EOF := by decide
    simp only [ReadPGM, getc, h4, h5, h8, h6, h7, if_false, if_true]

/-- Witness of C6: a stream starting with `Q5`, and the stream `PX`. -/
theorem C6_bad_magic_witness :
    (ReadPGM (fun _ => true) 0 ⟨[], 0, 0, 0⟩ [81, 53, 10, 49]).ret = EDOM
      ∧ (ReadPGM (fun _ => true) 0 ⟨[], 0, 0, 0⟩ [80, 88]).ret = EDOM :=
  ⟨(C6_bad_magic (fun _ => true) 0 ⟨[], 0, 0, 0⟩).1 81 [53, 10, 49]
      (by decide) (by decide) (by decide),
   (C6_bad_magic (fun _ => true) 0 ⟨[], 0, 0, 0⟩).2.1 88 []
      (by decide) (by decide) (by decide) (by decide)⟩

/-- C7. A zero maximum value is a format error: for every stream with magic
`P2` or `P5` whose header is read as some width, some height and a maximum
value of 0, `ReadPGM` returns `EDOM`, whatever bytes follow the header. -/
theorem C7_zero_maxVal (alloc : Nat → Bool) (errno : Int) (pgm : PGM)
    (t : Nat) (rest fp1 fp2 fp3 fp4 : List Nat) (w h : Nat) (e1 e2 e3 : Int)
    (ht : t = 50 ∨ t = 53)
    (h0 : skipHeaderSpace rest = some fp1)
    (h1 : fscanfHu errno fp1 = some (w, e1, fp2))
    (h2 : fscanfHu e1 fp2 = some (h, e2, fp3))
    (h3 : fscanfHu e2 fp3 = some (0, e3, fp4)) :
    (ReadPGM alloc errno pgm (80 :: t :: rest)).ret = EDOM := by
  have hmeta : ∀ type, (readPGMMetadata alloc errno pgm rest type).ret = EDOM := by
    intro type
    simp only [readPGMMetadata, h0, h1, h2, h3, if_true]
  have h4 : ¬ toChar ((80 : Nat) : Int) = EOF := by decide
  have h5 : ¬ toChar ((80 : Nat) : Int) ≠ 80 := by decide
  rcases ht with rfl | rfl
  · have h6 : toChar ((50 : Nat) : Int) = 50 := by decide
    simp only [ReadPGM, getc, h4, h5, h6, if_false, if_true]
    exact hmeta _
  · have h6 : ¬ toChar ((53 : Nat) : Int) = 50 := by decide
    have h7 : toChar ((53 : Nat) : Int) = 53 := by decide
    simp only [ReadPGM, getc, h4, h5, h6, h7, if_false, if_true]
    exact hmeta _

/-- Witness of C7: the stream `P5\n3 4\n0\n` followed by two bytes. -/
theorem C7_zero_maxVal_witness :
    (ReadPGM (fun _ => true) 0 ⟨[], 0, 0, 0⟩
        (80 :: 53 :: [10, 51, 32, 52, 10, 48, 10, 7, 7])).ret = EDOM :=
  C7_zero_maxVal (fun _ => true) 0 ⟨[], 0, 0, 0⟩ 53 [10, 51, 32, 52, 10, 48, 10, 7, 7]
    [51, 32, 52, 10, 48, 10, 7, 7] [32, 52, 10, 48, 10, 7, 7] [10, 48, 10, 7, 7] [10, 7, 7]
    3 4 0 0 0 (by decide) (by decide) (by decide) (by decide) (by decide)

/-! ## Caller's object after a failed decode -/

/-- C8, refuted as stated.  On the stream `P5\n3 4\n0\n` the call fails with
`EDOM`, and the caller's object, which held a 1x1 image, now carries the
width 3, the height 4 and the maximum value 0 read before the failure. -/
theorem C8_header_fields_counterexample :
    ReadPGM (fun _ => true) 0 ⟨[9], 1, 1, 9⟩ [80, 53, 10, 51, 32, 52, 10, 48, 10]
        = ⟨EDOM, ⟨[9], 3, 4, 0⟩⟩
      ∧ (ReadPGM (fun _ => true) 0 ⟨[9], 1, 1, 9⟩
          [80, 53, 10, 51, 32, 52, 10, 48, 10]).ret ≠ 0
      ∧ (ReadPGM (fun _ => true) 0 ⟨[9], 1, 1, 9⟩
          [80, 53, 10, 51, 32, 52, 10, 48, 10]).pgm ≠ ⟨[9], 1, 1, 9⟩ := by
  decide

/-- C8, amended.  When `ReadPGM` returns before it has read the width, that
is whenever the stream does not start with `P2` or `P5`, or nothing but blanks
follows the magic number, or no number can be read there, the caller's object
(width, height, maxVal and sample storage) is exactly what it was before the
call. -/
theorem C8_no_change_before_width (alloc : Nat → Bool) (errno : Int) (pgm : PGM)
    (fp : List Nat) (hbytes : ∀ b ∈ fp, b < 256)
    (h : ∀ t rest fp1, fp = 80 :: t :: rest → t = 50 ∨ t = 53 →
      skipHeaderSpace rest = some fp1 → fscanfHu errno fp1 = none) :
    (ReadPGM alloc errno pgm fp).pgm = pgm := by
  have hmeta : ∀ t rest type, fp = 80 :: t :: rest → t = 50 ∨ t = 53 →
      (readPGMMetadata alloc errno pgm rest type).pgm = pgm := by
    intro t rest type hfp ht
    unfold readPGMMetadata
    cases hs : skipHeaderSpace rest with
    | none => rfl
    | some fp1 =>
      simp only [h t rest fp1 hfp ht hs]
  unfold ReadPGM
  cases fp with
  | nil => simp only [getc]; split <;> rfl
  | cons b fp =>
    have hb : b < 256 := hbytes b (List.mem_cons_self _ _)
    simp only [getc]
    split
    · rfl
    · split
      · rfl
      · rename_i hP
        have hb80 : b = 80 := by
          have := (toChar_byte_eq b 80 hb (by decide) (by decide)).1 (not_not.1 hP)
          omega
        subst hb80
        cases fp with
        | nil =>
          simp only [getc]
          split <;> (try split) <;> (try split) <;> rfl
        | cons c fp =>
          have hc : c < 256 := hbytes c (List.mem_cons_of_mem _ (List.mem_cons_self _ _))
          simp only [getc]
          split
          · rename_i h2
            have : c = 50 := by
              have := (toChar_byte_eq c 50 hc (by decide) (by decide)).1 h2
              omega
            exact hmeta c fp _ rfl (Or.inl this)
          · split
            · rename_i h2
              have : c = 53 := by
                have := (toChar_byte_eq c 53 hc (by decide) (by decide)).1 h2
                omega
              exact hmeta c fp _ rfl (Or.inr this)
            · split <;> rfl

/-- Witness of C8: the stream `P5 x`, on which no width can be read. -/
theorem C8_no_change_before_width_witness :
    (ReadPGM (fun _ => true) 0 ⟨[9], 1, 1, 9⟩ [80, 53, 32, 120]).pgm = ⟨[9], 1, 1, 9⟩ :=
  C8_no_change_before_width (fun _ => true) 0 ⟨[9], 1, 1, 9⟩ [80, 53, 32, 120] (by decide)
    (by
      intro t rest fp1 hfp _ hs
      simp only [List.cons.injEq] at hfp
      obtain ⟨_, _, hrest⟩ := hfp
      subst hrest
      have : fp1 = [120] := by
        have h2 : skipHeaderSpace [32, 120] = some [120] := by decide
        rw [h2] at hs
        exact (Option.some.inj hs).symm
      subst this
      decide)

/-! ## Set and get on valid coordinates -/

/-- Every coordinate inside the image is turned down by `SetPGMPixel`: the
call returns 1 and the buffer is unchanged. -/
theorem SetPGMPixel_valid_rejected (pgm : PGM) (row column : Int) (pixel : Nat)
    (hr : row < (pgm.height : Int)) :
    SetPGMPixel pgm row column pixel = some (1, pgm) := by
  unfold SetPGMPixel
  rw [rejects_of_valid pgm row column hr]
  rfl

/-- Every coordinate inside the image is turned down by `GetPGMPixel`: the
call returns 1 and stores no value. -/
theorem GetPGMPixel_valid_rejected (pgm : PGM) (row column : Int)
    (hr : row < (pgm.height : Int)) :
    GetPGMPixel pgm row column = some (1, none) := by
  unfold GetPGMPixel
  rw [rejects_of_valid pgm row column hr]
  rfl

/-- C9, at the failing input.  On the 2x2 buffer with samples `[0, 0, 0, 0]`,
`SetPGMPixel(1, 1, 7)` returns 1 and stores nothing, and `GetPGMPixel(1, 1)`
returns 1 without an output value: the bounds test
`pgm->height >= row || pgm->width >= column || ...` turns down every
coordinate inside the image. -/
theorem C9_set_get_valid_coordinate_rejected :
    SetPGMPixel ⟨[0, 0, 0, 0], 2, 2, 255⟩ 1 1 7 = some (1, ⟨[0, 0, 0, 0], 2, 2, 255⟩)
      ∧ GetPGMPixel ⟨[0, 0, 0, 0], 2, 2, 255⟩ 1 1 = some (1, none) :=
  ⟨SetPGMPixel_valid_rejected _ 1 1 7 (by decide),
   GetPGMPixel_valid_rejected _ 1 1 (by decide)⟩

/-- C10. Range auto-expansion on set: whenever `SetPGMPixel(pgm, row, column,
v)` returns 0, the buffer's `maxVal` afterwards is `max(old maxVal, v)`, that
is `v` when `v > old maxVal` and the old value otherwise, never lower; the
cell `row * width + column` holds `v` itself and no other cell changed; width
and height are unchanged. -/
theorem C10_set_expands_range (pgm pgm1 : PGM) (row column : Int) (v : Nat)
    (h : SetPGMPixel pgm row column v = some (0, pgm1)) :
    pgm1.maxVal = max pgm.maxVal v
      ∧ (pgm.maxVal < v → pgm1.maxVal = v)
      ∧ (v ≤ pgm.maxVal → pgm1.maxVal = pgm.maxVal)
      ∧ pgm.maxVal ≤ pgm1.maxVal
      ∧ pgm1.data[(pixelIndex pgm row column).toNat]? = some v
      ∧ pgm1.data = pgm.data.set (pixelIndex pgm row column).toNat v
      ∧ pgm1.width = pgm.width ∧ pgm1.height = pgm.height := by
  unfold SetPGMPixel at h
  by_cases hrej : rejects pgm row column = true
  · rw [if_pos hrej] at h
    simp at h
  · rw [if_neg hrej] at h
    simp only at h
    by_cases hidx : (pixelIndex pgm row column).toNat < pgm.data.length
    · rw [if_pos hidx] at h
      by_cases hgt : v > pgm.maxVal
      · rw [if_pos hgt] at h
        simp only [Option.some.injEq, Prod.mk.injEq, true_and] at h
        subst h
        refine ⟨(max_eq_right (Nat.le_of_lt hgt)).symm, fun _ => rfl,
          fun hle => absurd hle (by omega), by simp only; omega, ?_, rfl, rfl, rfl⟩
        simp only [List.getElem?_set_self hidx]
      · rw [if_neg hgt] at h
        simp only [Option.some.injEq, Prod.mk.injEq, true_and] at h
        subst h
        refine ⟨(max_eq_left (Nat.le_of_not_lt hgt)).symm, fun hlt => absurd hlt hgt,
          fun _ => rfl, le_refl _, ?_, rfl, rfl, rfl⟩
        simp only [List.getElem?_set_self hidx]
    · rw [if_neg hidx] at h
      simp at h

/-- Witness of C10: a 1x1 image stored in an array of ten cells, written at
row 2, column 2 with the value 7 above its `maxVal` 5. -/
theorem C10_set_expands_range_witness :
    SetPGMPixel ⟨[0, 0, 0, 0, 0, 0, 0, 0, 0, 0], 1, 1, 5⟩ 2 2 7
        = some (0, ⟨[0, 0, 0, 0, 7, 0, 0, 0, 0, 0], 1, 1, 7⟩)
      ∧ (7 : Nat) = max 5 7 :=
  ⟨by decide,
   (C10_set_expands_range ⟨[0, 0, 0, 0, 0, 0, 0, 0, 0, 0], 1, 1, 5⟩
      ⟨[0, 0, 0, 0, 7, 0, 0, 0, 0, 0], 1, 1, 7⟩ 2 2 7 (by decide)).1⟩

/-! ## The envelope of the bounds test -/

/-- The bounds test lets a coordinate through exactly when the row is above
the height and the column above the width. -/
theorem rejects_eq_false_iff (pgm : PGM) (row column : Int) :
    rejects pgm row column = false
      ↔ (pgm.height : Int) < row ∧ (pgm.width : Int) < column := by
  unfold rejects
  simp only [Bool.or_eq_false_iff, decide_eq_false_iff_not, not_le, ge_iff_le]
  constructor
  · rintro ⟨⟨⟨h1, h2⟩, _⟩, _⟩
    exact ⟨h1, h2⟩
  · rintro ⟨h1, h2⟩
    exact ⟨⟨⟨h1, h2⟩, by omega⟩, by omega⟩

theorem rejects_of_le (pgm : PGM) (row column : Int)
    (h : row ≤ (pgm.height : Int) ∨ column ≤ (pgm.width : Int) ∨ row ≤ 0 ∨ column ≤ 0) :
    rejects pgm row column = true := by
  cases hr : rejects pgm row column with
  | true => rfl
  | false =>
    have := (rejects_eq_false_iff pgm row column).1 hr
    omega

/-- A coordinate that the bounds test turns down: each of the four accessors
returns 1, the buffer is unchanged and no value is stored through `pixel`. -/
theorem accessors_of_rejects (pgm : PGM) (row column : Int) (v : Nat)
    (h : rejects pgm row column = true) :
    SetPGMPixel pgm row column v = some (1, pgm)
      ∧ GetPGMPixel pgm row column = some (1, none)
      ∧ GetPGMPixelNormalized pgm row column = some (1, none)
      ∧ SetPGMPixelNormalized pgm row column v = some (1, pgm) := by
  simp only [SetPGMPixel, GetPGMPixel, GetPGMPixelNormalized, SetPGMPixelNormalized, h,
    if_true, and_self]

/-- A coordinate that passes the bounds test of a buffer holding exactly
`width * height` samples designates a cell at or after the end of the
array. -/
theorem pixelIndex_ge_of_accepted (pgm : PGM) (row column : Int)
    (hlen : pgm.data.length = pgm.width * pgm.height)
    (hacc : rejects pgm row column = false) :
    pgm.data.length ≤ (pixelIndex pgm row column).toNat := by
  obtain ⟨h1, h2⟩ := (rejects_eq_false_iff pgm row column).1 hacc
  have hw : (0 : Int) ≤ (pgm.width : Int) := Int.ofNat_nonneg _
  have hmul : ((pgm.height : Int) + 1) * (pgm.width : Int) ≤ row * (pgm.width : Int) :=
    Int.mul_le_mul_of_nonneg_right (by omega) hw
  have hcast : ((pgm.data.length : Nat) : Int) = (pgm.width : Int) * (pgm.height : Int) := by
    rw [hlen]; push_cast; rfl
  have hexp : ((pgm.height : Int) + 1) * (pgm.width : Int)
      = (pgm.width : Int) * (pgm.height : Int) + (pgm.width : Int) := by ring
  unfold pixelIndex
  omega

/-! ## Accepted and rejected coordinates -/

/-- The integer form of `pixelIndex_ge_of_accepted`. -/
theorem pixelIndex_int_ge_of_accepted (pgm : PGM) (row column : Int)
    (hacc : rejects pgm row column = false) :
    ((pgm.width * pgm.height : Nat) : Int) ≤ pixelIndex pgm row column := by
  obtain ⟨h1, h2⟩ := (rejects_eq_false_iff pgm row column).1 hacc
  have hw : (0 : Int) ≤ (pgm.width : Int) := Int.ofNat_nonneg _
  have hmul : ((pgm.height : Int) + 1) * (pgm.width : Int) ≤ row * (pgm.width : Int) :=
    Int.mul_le_mul_of_nonneg_right (by omega) hw
  have hexp : ((pgm.height : Int) + 1) * (pgm.width : Int)
      = (pgm.width : Int) * (pgm.height : Int) + (pgm.width : Int) := by ring
  unfold pixelIndex
  push_cast
  omega

/-- C11, at the failing input.  On the 2x2 buffer the coordinate (3, 3) lies
outside the image, yet the bounds test lets it through: none of the four
accessors returns 1, each goes on to cell 9 of a four-cell array.  On a 1x1
image kept in a ten-cell array the coordinate (2, 2), also outside the image,
makes `SetPGMPixel` return 0, overwrite cell 4 and raise `maxVal`, and makes
`GetPGMPixel` return 0 with an output value. -/
theorem C11_out_of_range_accepted :
    rejects ⟨[0, 0, 0, 0], 2, 2, 255⟩ 3 3 = false
      ∧ SetPGMPixel ⟨[0, 0, 0, 0], 2, 2, 255⟩ 3 3 7 = none
      ∧ GetPGMPixel ⟨[0, 0, 0, 0], 2, 2, 255⟩ 3 3 = none
      ∧ GetPGMPixelNormalized ⟨[0, 0, 0, 0], 2, 2, 255⟩ 3 3 = none
      ∧ SetPGMPixelNormalized ⟨[0, 0, 0, 0], 2, 2, 255⟩ 3 3 7 = none
      ∧ SetPGMPixel ⟨[0, 0, 0, 0, 0, 0, 0, 0, 0, 0], 1, 1, 5⟩ 2 2 7
          = some (0, ⟨[0, 0, 0, 0, 7, 0, 0, 0, 0, 0], 1, 1, 7⟩)
      ∧ GetPGMPixel ⟨[0, 0, 0, 0, 9, 0, 0, 0, 0, 0], 1, 1, 9⟩ 2 2 = some (0, some 9) := by
  decide

/-- C12, refuted as stated.  At row == height, column == width of a 2x2 buffer
each of the four accessors returns 1: the coordinate is turned down, not
accepted. -/
theorem C12_corner_counterexample :
    SetPGMPixel ⟨[0, 0, 0, 0], 2, 2, 255⟩ 2 2 7 = some (1, ⟨[0, 0, 0, 0], 2, 2, 255⟩)
      ∧ GetPGMPixel ⟨[0, 0, 0, 0], 2, 2, 255⟩ 2 2 = some (1, none)
      ∧ GetPGMPixelNormalized ⟨[0, 0, 0, 0], 2, 2, 255⟩ 2 2 = some (1, none)
      ∧ SetPGMPixelNormalized ⟨[0, 0, 0, 0], 2, 2, 255⟩ 2 2 7
          = some (1, ⟨[0, 0, 0, 0], 2, 2, 255⟩) := by
  decide

/-- C12, amended.  For every buffer, each of the four accessors returns 1,
leaving the buffer unchanged and storing no output, at every coordinate with
`row <= 0` or `column <= 0`, and also at every coordinate with
`row <= height` or `column <= width`, the corner row == height,
column == width included; the bounds test passes exactly when `row > height`
and `column > width`. -/
theorem C12_envelope (pgm : PGM) (row column : Int) (v : Nat) :
    (row ≤ 0 ∨ column ≤ 0 ∨ row ≤ (pgm.height : Int) ∨ column ≤ (pgm.width : Int) →
        SetPGMPixel pgm row column v = some (1, pgm)
          ∧ GetPGMPixel pgm row column = some (1, none)
          ∧ GetPGMPixelNormalized pgm row column = some (1, none)
          ∧ SetPGMPixelNormalized pgm row column v = some (1, pgm))
      ∧ (rejects pgm row column = false
          ↔ (pgm.height : Int) < row ∧ (pgm.width : Int) < column) := by
  refine ⟨fun h => accessors_of_rejects pgm row column v
    (rejects_of_le pgm row column (by omega)), rejects_eq_false_iff pgm row column⟩

/-- Witness of C12: row 0 of a 2x2 buffer, and its corner (2, 2). -/
theorem C12_envelope_witness :
    SetPGMPixel ⟨[0, 0, 0, 0], 2, 2, 255⟩ 0 1 7 = some (1, ⟨[0, 0, 0, 0], 2, 2, 255⟩)
      ∧ GetPGMPixelNormalized ⟨[0, 0, 0, 0], 2, 2, 255⟩ 2 2 = some (1, none) :=
  ⟨((C12_envelope ⟨[0, 0, 0, 0], 2, 2, 255⟩ 0 1 7).1 (by decide)).1,
   ((C12_envelope ⟨[0, 0, 0, 0], 2, 2, 255⟩ 2 2 7).1 (by decide)).2.2.1⟩

/-- C13, at the failing input.  For `maxVal` 65535 and a stored sample 65535
the product `65535 * 65535` does not fit `int`; it wraps to -131071, the
quotient is -2 and `GetPGMPixelNormalized` outputs 65534, where
`floor(65535 * 65535 / 65535)` is 65535.  The sample sits in cell 4 of a
ten-cell array read at the accepted coordinate (2, 2). -/
theorem C13_normalized_read_overflow :
    wrapInt32 (65535 * UINT16_MAX) = -131071
      ∧ RENORMALIZE 65535 65535 UINT16_MAX = some (-2)
      ∧ GetPGMPixelNormalized ⟨[0, 0, 0, 0, 65535, 0, 0, 0, 0, 0], 1, 1, 65535⟩ 2 2
          = some (0, some 65534)
      ∧ 65535 * 65535 / 65535 = 65535 := by
  decide

/-- C14, at the failing input.  For `maxVal` 65535 and the input 65535 the
product `65535 * 65535` wraps to -131071 in `int`, the quotient by 65535 is -2
and `SetPGMPixelNormalized` stores 65534, where
`floor(65535 * 65535 / 65535)` is 65535.  The store goes to cell 4 of a
ten-cell array at the accepted coordinate (2, 2). -/
theorem C14_normalized_write_overflow :
    RENORMALIZE 65535 UINT16_MAX 65535 = some (-2)
      ∧ SetPGMPixelNormalized ⟨[0, 0, 0, 0, 0, 0, 0, 0, 0, 0], 1, 1, 65535⟩ 2 2 65535
          = some (0, ⟨[0, 0, 0, 0, 65534, 0, 0, 0, 0, 0], 1, 1, 65535⟩)
      ∧ 65535 * 65535 / 65535 = 65535 := by
  decide

/-- C18. Every accepted coordinate addresses outside the sample array: for
every buffer with as many samples as `width * height` and every coordinate
that passes the bounds test, the index `row * width + column` is at least
`width * height`; each of the four accessors then performs its access outside
the array, so no accessor call reads or writes a sample of the image. -/
theorem C18_accepted_index_outside (pgm : PGM) (row column : Int) (v : Nat)
    (hlen : pgm.data.length = pgm.width * pgm.height)
    (hacc : rejects pgm row column = false) :
    ((pgm.width * pgm.height : Nat) : Int) ≤ pixelIndex pgm row column
      ∧ pgm.width * pgm.height ≤ (pixelIndex pgm row column).toNat
      ∧ SetPGMPixel pgm row column v = none
      ∧ GetPGMPixel pgm row column = none
      ∧ GetPGMPixelNormalized pgm row column = none
      ∧ SetPGMPixelNormalized pgm row column v = none := by
  have hge := pixelIndex_ge_of_accepted pgm row column hlen hacc
  have hnone : pgm.data[(pixelIndex pgm row column).toNat]? = none :=
    List.getElem?_eq_none hge
  have hnlt : ¬ (pixelIndex pgm row column).toNat < pgm.data.length := by omega
  refine ⟨pixelIndex_int_ge_of_accepted pgm row column hacc, by omega, ?_, ?_, ?_, ?_⟩
  · simp only [SetPGMPixel, hacc, Bool.false_eq_true, if_false, hnlt]
  · simp only [GetPGMPixel, hacc, Bool.false_eq_true, if_false, hnone]
  · simp only [GetPGMPixelNormalized, hacc, Bool.false_eq_true, if_false, hnone]
  · simp only [SetPGMPixelNormalized, hacc, Bool.false_eq_true, if_false, hnlt]
    cases RENORMALIZE (v : Int) UINT16_MAX (pgm.maxVal : Int) <;> rfl

/-- Witness of C18: the coordinate (3, 3) of a 2x2 buffer, index 9. -/
theorem C18_accepted_index_outside_witness :
    (4 : Int) ≤ pixelIndex ⟨[0, 0, 0, 0], 2, 2, 255⟩ 3 3
      ∧ SetPGMPixel ⟨[0, 0, 0, 0], 2, 2, 255⟩ 3 3 7 = none :=
  ⟨(C18_accepted_index_outside ⟨[0, 0, 0, 0], 2, 2, 255⟩ 3 3 7 (by decide) (by decide)).1,
   (C18_accepted_index_outside ⟨[0, 0, 0, 0], 2, 2, 255⟩ 3 3 7 (by decide) (by decide)).2.2.1⟩

/-! ## Arithmetic of RENORMALIZE -/

theorem wrapInt32_of_lt (n : Nat) (h : n < 2147483648) : wrapInt32 (n : Int) = (n : Int) := by
  unfold wrapInt32
  omega

/-- Without overflow of the product, `RENORMALIZE` and the store into a
`uint16_t` yield the truncated quotient reduced modulo `2^16`. -/
theorem rescaled_exact (oldMax newMax x : Nat) (h : x * newMax < 2147483648) :
    rescaled oldMax newMax x = x * newMax / oldMax % 65536 := by
  unfold rescaled toUInt16
  have h1 : ((x : Int) * (newMax : Int)) = ((x * newMax : Nat) : Int) := by push_cast; rfl
  rw [h1, wrapInt32_of_lt _ h, ← Int.ofNat_tdiv]
  omega

theorem rescaled_exact_of_le (oldMax newMax x : Nat) (h : x * newMax < 2147483648)
    (hx : x ≤ oldMax) (hk : newMax < 65536) :
    rescaled oldMax newMax x = x * newMax / oldMax := by
  rw [rescaled_exact oldMax newMax x h]
  apply Nat.mod_eq_of_lt
  by_cases h0 : oldMax = 0
  · subst h0; simp
  · have : x * newMax / oldMax ≤ newMax := by
      apply Nat.div_le_of_le_mul
      exact Nat.mul_le_mul_right _ hx
    omega

/-- The range property of the rescaling under the wrapping product: a sample
within `[0, oldMax]` is sent into `[0, newMax]`. -/
theorem rescaled_le (oldMax newMax x : Nat) (hM1 : 1 ≤ oldMax) (hM : oldMax ≤ 65535)
    (hK : newMax ≤ 65535) (hx : x ≤ oldMax) :
    rescaled oldMax newMax x ≤ newMax := by
  by_cases hov : x * newMax < 2147483648
  · rw [rescaled_exact_of_le oldMax newMax x hov hx (by omega)]
    apply Nat.div_le_of_le_mul
    exact Nat.mul_le_mul_right _ hx
  · -- the product wraps to `x * newMax - 2^32`
    have hxK : x * newMax ≤ oldMax * newMax := Nat.mul_le_mul_right _ hx
    have hMK : oldMax * newMax ≤ 65535 * 65535 := Nat.mul_le_mul hM hK
    have hxlow : 32769 ≤ x := by
      by_contra hlt
      have : x * newMax ≤ 32768 * 65535 := Nat.mul_le_mul (by omega) hK
      omega
    obtain ⟨t, ht⟩ : ∃ t : Nat, t + x * newMax = 4294967296 := ⟨4294967296 - x * newMax, by omega⟩
    have hwrap : wrapInt32 ((x : Int) * (newMax : Int)) = -(t : Int) := by
      have h1 : ((x : Int) * (newMax : Int)) = ((x * newMax : Nat) : Int) := by push_cast; rfl
      rw [h1]
      unfold wrapInt32
      omega
    have hq1 : t / oldMax ≤ 65535 := by
      apply Nat.div_le_of_le_mul
      have : oldMax * 32769 ≤ oldMax * 65535 := Nat.mul_le_mul_left _ (by omega)
      have : 32769 * 65535 ≤ oldMax * 65535 := Nat.mul_le_mul_right _ (by omega)
      omega
    have hq2 : 65536 - newMax ≤ t / oldMax := by
      rw [Nat.le_div_iff_mul_le (by omega)]
      have ha : 65536 - newMax + newMax = 65536 := by omega
      have e1 : (65536 - newMax) * oldMax + newMax * oldMax = 65536 * oldMax := by
        rw [← Nat.add_mul, ha]
      have e2 : newMax * oldMax = oldMax * newMax := Nat.mul_comm _ _
      omega
    unfold rescaled toUInt16
    rw [hwrap, Int.neg_tdiv, ← Int.ofNat_tdiv]
    omega

/-! ## The loop of NormalizePGMToNewMaxVal -/

theorem RENORMALIZE_rescaled (oldMax newMax x : Nat) (hM : oldMax ≠ 0) :
    RENORMALIZE (x : Int) (oldMax : Int) (newMax : Int)
      = some (Int.tdiv (wrapInt32 ((x : Int) * (newMax : Int))) (oldMax : Int)) := by
  unfold RENORMALIZE
  rw [if_neg (by omega)]

theorem getElem?_append_cons_length (pre post : List Nat) (x : Nat) :
    (pre ++ x :: post)[pre.length]? = some x := by
  induction pre with
  | nil => simp
  | cons a pre ih => simpa using ih

theorem set_append_cons_length (pre post : List Nat) (x y : Nat) :
    (pre ++ x :: post).set pre.length y = pre ++ y :: post := by
  induction pre with
  | nil => simp
  | cons a pre ih => simp

theorem normalizeCell_eq (oldMax newMax : Nat) (hM : oldMax ≠ 0) (pre post : List Nat)
    (x : Nat) :
    normalizeCell (oldMax : Int) (newMax : Int) pre.length (pre ++ x :: post)
      = some (pre ++ rescaled oldMax newMax x :: post) := by
  unfold normalizeCell
  rw [getElem?_append_cons_length]
  simp only [RENORMALIZE_rescaled oldMax newMax x hM, set_append_cons_length]
  rfl

/-- Closed form of the loop of `NormalizePGMToNewMaxVal` over the cells
`xs` that follow the cells `pre` already rewritten. -/
theorem normalizeLoop_eq (oldMax newMax : Nat) (hM : oldMax ≠ 0) (xs pre post : List Nat) :
    normalizeLoop (oldMax : Int) (newMax : Int) xs.length pre.length (pre ++ (xs ++ post))
      = some (pre ++ (xs.map (rescaled oldMax newMax) ++ post)) := by
  induction xs generalizing pre with
  | nil => simp [normalizeLoop]
  | cons x xs ih =>
    simp only [List.length_cons, normalizeLoop, List.cons_append,
      normalizeCell_eq oldMax newMax hM pre (xs ++ post) x]
    have := ih (pre ++ [rescaled oldMax newMax x])
    simp only [List.length_append, List.length_singleton, List.append_assoc,
      List.singleton_append] at this
    rw [this]
    simp only [List.map_cons, List.cons_append]


/-- The rescaling of a buffer whose loop bound does not exceed its array:
the first `imageSize` cells are rescaled from the old `maxVal`, the others are
kept, and `maxVal` is replaced. -/
theorem NormalizePGMToNewMaxVal_eq (pgm : PGM) (newMax : Nat) (hM : pgm.maxVal ≠ 0)
    (hsz : imageSize pgm ≤ pgm.data.length) :
    NormalizePGMToNewMaxVal pgm newMax
      = some ⟨(pgm.data.take (imageSize pgm)).map (rescaled pgm.maxVal newMax)
          ++ pgm.data.drop (imageSize pgm), pgm.width, pgm.height, newMax⟩ := by
  have hloop := normalizeLoop_eq pgm.maxVal newMax hM (pgm.data.take (imageSize pgm)) []
    (pgm.data.drop (imageSize pgm))
  unfold NormalizePGMToNewMaxVal
  generalize imageSize pgm = n at *
  rw [List.nil_append, List.take_append_drop, List.length_take, Nat.min_eq_left hsz,
    List.length_nil, List.nil_append] at hloop
  simp only [hloop]

theorem NormalizePGMToNewMaxVal_exact (pgm : PGM) (newMax : Nat) (hM : pgm.maxVal ≠ 0)
    (hlen : pgm.data.length = pgm.width * pgm.height)
    (hsz : pgm.width * pgm.height < 2147483648) :
    NormalizePGMToNewMaxVal pgm newMax
      = some ⟨pgm.data.map (rescaled pgm.maxVal newMax), pgm.width, pgm.height, newMax⟩ := by
  have hs : imageSize pgm = pgm.data.length := by rw [imageSize_eq pgm hsz, hlen]
  have h := NormalizePGMToNewMaxVal_eq pgm newMax hM (le_of_eq hs)
  generalize imageSize pgm = n at *
  subst hs
  rw [h, List.take_length, List.drop_length, List.append_nil]

theorem normalizeCell_length (oldMax newMax : Int) (i : Nat) (data d : List Nat)
    (hc : normalizeCell oldMax newMax i data = some d) :
    d.length = data.length ∧ i < data.length := by
  unfold normalizeCell at hc
  cases hg : data[i]? with
  | none => rw [hg] at hc; exact absurd hc (by simp)
  | some x =>
    rw [hg] at hc
    simp only at hc
    have hlt : i < data.length := by
      by_contra hge
      have : data[i]? = none := List.getElem?_eq_none (by omega)
      rw [this] at hg
      exact absurd hg (by simp)
    cases hr : RENORMALIZE (x : Int) oldMax newMax with
    | none => rw [hr] at hc; exact absurd hc (by simp)
    | some q =>
      rw [hr] at hc
      simp only [Option.some.injEq] at hc
      rw [← hc, List.length_set]
      exact ⟨rfl, hlt⟩

theorem normalizeLoop_overrun (oldMax newMax : Int) (n i : Nat) (data : List Nat)
    (hi : i ≤ data.length) (h : data.length < i + n) :
    normalizeLoop oldMax newMax n i data = none := by
  induction n generalizing i data with
  | zero => omega
  | succ n ih =>
    simp only [normalizeLoop]
    cases hc : normalizeCell oldMax newMax i data with
    | none => rfl
    | some d =>
      obtain ⟨hlen, hlt⟩ := normalizeCell_length oldMax newMax i data d hc
      simp only
      exact ih (i + 1) d (by omega) (by omega)

/-- A buffer whose loop bound exceeds its array: the loop of
`NormalizePGMToNewMaxVal` leaves the array. -/
theorem NormalizePGMToNewMaxVal_overrun (pgm : PGM) (newMax : Nat)
    (h : pgm.data.length < imageSize pgm) : NormalizePGMToNewMaxVal pgm newMax = none := by
  unfold NormalizePGMToNewMaxVal
  generalize imageSize pgm = n at *
  simp only [normalizeLoop_overrun _ _ n 0 pgm.data (Nat.zero_le _) (by omega)]

/-! ## Maximum value after a decode -/

theorem readPGMAsciiData_maxVal (alloc : Nat → Bool) (errno : Int) (pgm : PGM)
    (fp : List Nat) : (readPGMAsciiData alloc errno pgm fp).pgm.maxVal = pgm.maxVal := by
  unfold readPGMAsciiData
  simp only
  split <;> rfl

theorem readPGMBinaryData_maxVal (alloc : Nat → Bool) (errno : Int) (pgm : PGM)
    (fp : List Nat) : (readPGMBinaryData alloc errno pgm fp).pgm.maxVal = pgm.maxVal := by
  unfold readPGMBinaryData
  simp only
  split
  · split
    · split <;> rfl
    · rfl
  · rfl

/-- The maximum value that `readPGMMetadata` leaves behind when it returns 0
is the caller's old one or a value of at least 1. -/
theorem readPGMMetadata_maxVal (alloc : Nat → Bool) (errno : Int) (pgm : PGM)
    (fp : List Nat) (type : PGMType)
    (h : (readPGMMetadata alloc errno pgm fp type).ret = 0) :
    (readPGMMetadata alloc errno pgm fp type).pgm.maxVal = pgm.maxVal
      ∨ 1 ≤ (readPGMMetadata alloc errno pgm fp type).pgm.maxVal := by
  unfold readPGMMetadata at h ⊢
  cases h0 : skipHeaderSpace fp with
  | none => left; rfl
  | some fp1 =>
    simp only [h0] at h ⊢
    cases h1 : fscanfHu errno fp1 with
    | none => left; rfl
    | some r1 =>
      obtain ⟨w, e1, fp2⟩ := r1
      simp only [h1] at h ⊢
      cases h2 : fscanfHu e1 fp2 with
      | none => left; rfl
      | some r2 =>
        obtain ⟨hh, e2, fp3⟩ := r2
        simp only [h2] at h ⊢
        cases h3 : fscanfHu e2 fp3 with
        | none => left; rfl
        | some r3 =>
          obtain ⟨m, e3, fp4⟩ := r3
          simp only [h3] at h ⊢
          by_cases hm : m = 0
          · simp only [hm, if_true] at h
            exact absurd h (by decide)
          · right
            simp only [hm, if_false]
            split
            · simp only; omega
            · split
              · rw [readPGMAsciiData_maxVal]; simp only; omega
              · rw [readPGMBinaryData_maxVal]; simp only; omega

/-- The same for `ReadPGM`. -/
theorem ReadPGM_maxVal (alloc : Nat → Bool) (errno : Int) (pgm : PGM) (fp : List Nat)
    (h : (ReadPGM alloc errno pgm fp).ret = 0) :
    (ReadPGM alloc errno pgm fp).pgm.maxVal = pgm.maxVal
      ∨ 1 ≤ (ReadPGM alloc errno pgm fp).pgm.maxVal := by
  unfold ReadPGM at h ⊢
  simp only at h ⊢
  split
  · left; rfl
  · split
    · left; rfl
    · split
      · rename_i h1 h2 h3
        simp only [h1, h2, h3, if_false, if_true] at h
        exact readPGMMetadata_maxVal _ _ _ _ _ h
      · split
        · rename_i h1 h2 h3 h4
          simp only [h1, h2, h3, h4, if_false, if_true] at h
          exact readPGMMetadata_maxVal _ _ _ _ _ h
        · split <;> (left; rfl)

/-! ## Rescaling and the maximum value -/

/-- C15, refuted as stated.  On the 1x1 buffer with sample 3 and `maxVal` 1,
rescaling to 30000 leaves the sample 24464, the value 90000 reduced modulo
`2^16`, not `floor(3 * 30000 / 1) = 90000`.  On the 1x1 buffer with sample
65535 and `maxVal` 65535, rescaling to 65535 leaves 65534: the `int` product
wraps. -/
theorem C15_rescale_counterexample :
    NormalizePGMToNewMaxVal ⟨[3], 1, 1, 1⟩ 30000 = some ⟨[24464], 1, 1, 30000⟩
      ∧ 3 * 30000 / 1 = 90000
      ∧ NormalizePGMToNewMaxVal ⟨[65535], 1, 1, 65535⟩ 65535 = some ⟨[65534], 1, 1, 65535⟩
      ∧ 65535 * 65535 / 65535 = 65535 := by
  decide

/-- C15, amended.  For every buffer with old `maxVal` M of at least 1 and as
many samples as `width * height` (below `2^31`), and every new maximum K, a
`uint16_t`, such that every product `sample * K` is below `2^31`: after
`NormalizePGMToNewMaxVal(pgm, K)` the i-th sample is
`floor(old_sample_i * K / M)` reduced modulo `2^16`, each computed from the
old M, and it is `floor(old_sample_i * K / M)` itself whenever
`old_sample_i <= M`; `maxVal` is K; width, height and the number of samples
are unchanged. -/
theorem C15_rescale (pgm : PGM) (K : Nat) (hM : 1 ≤ pgm.maxVal) (hK : K < 65536)
    (hlen : pgm.data.length = pgm.width * pgm.height)
    (hsz : pgm.width * pgm.height < 2 ^ 31)
    (hprod : ∀ x ∈ pgm.data, x * K < 2 ^ 31) :
    NormalizePGMToNewMaxVal pgm K
        = some ⟨pgm.data.map (fun x => x * K / pgm.maxVal % 65536),
            pgm.width, pgm.height, K⟩
      ∧ (pgm.data.map (fun x => x * K / pgm.maxVal % 65536)).length = pgm.data.length
      ∧ ∀ x ∈ pgm.data, x ≤ pgm.maxVal → x * K / pgm.maxVal % 65536 = x * K / pgm.maxVal := by
  have h31 : (2 : Nat) ^ 31 = 2147483648 := by norm_num
  rw [h31] at hsz hprod
  refine ⟨?_, List.length_map _ _, ?_⟩
  · rw [NormalizePGMToNewMaxVal_exact pgm K (by omega) hlen hsz]
    congr 2
    apply List.map_congr_left
    intro x hx
    exact rescaled_exact pgm.maxVal K x (hprod x hx)
  · intro x hx hle
    rw [← rescaled_exact pgm.maxVal K x (hprod x hx)]
    exact rescaled_exact_of_le pgm.maxVal K x (hprod x hx) hle hK

/-- Witness of C15: the 2x2 buffer `[7, 10, 0, 3]` with `maxVal` 10 rescaled
to 2. -/
theorem C15_rescale_witness :
    NormalizePGMToNewMaxVal ⟨[7, 10, 0, 3], 2, 2, 10⟩ 2
      = some ⟨[7, 10, 0, 3].map (fun x => x * 2 / 10 % 65536), 2, 2, 2⟩ :=
  (C15_rescale ⟨[7, 10, 0, 3], 2, 2, 10⟩ 2 (by decide) (by decide) (by decide) (by decide)
    (by decide)).1

/-- C16, refuted as stated.  `InitPGM` with a maximum value of 0 returns 0 and
builds a buffer with `maxVal` 0; `SetPGMMaxVal` and `NormalizePGMToNewMaxVal`
with the argument 0 turn a buffer with `maxVal` 10 into one with
`maxVal` 0. -/
theorem C16_maxVal_zero_counterexample :
    InitPGM (fun _ => true) ⟨[], 0, 0, 0⟩ 2 3 0 = ⟨0, ⟨[0, 0, 0, 0, 0, 0], 2, 3, 0⟩⟩
      ∧ (SetPGMMaxVal ⟨[7], 1, 1, 10⟩ 0).maxVal = 0
      ∧ NormalizePGMToNewMaxVal ⟨[7], 1, 1, 10⟩ 0 = some ⟨[0], 1, 1, 0⟩ := by
  decide

/-- C16, amended.  Whenever `ReadPGM` returns 0, the `maxVal` of the caller's
buffer is the one it had before the call or a value of at least 1 (a header
announcing 0 is answered with `EDOM`); `SetPGMPixel` never lowers `maxVal`
and `SetPGMPixelNormalized` leaves it unchanged, so both keep
`maxVal >= 1`; `InitPGM`, `SetPGMMaxVal` and `NormalizePGMToNewMaxVal` store
their `maxVal` argument as it is, so after them `maxVal >= 1` holds exactly
when the argument is at least 1. -/
theorem C16_maxVal_invariant (alloc : Nat → Bool) (errno : Int) (pgm : PGM) :
    (∀ fp, (ReadPGM alloc errno pgm fp).ret = 0 →
        (ReadPGM alloc errno pgm fp).pgm.maxVal = pgm.maxVal
          ∨ 1 ≤ (ReadPGM alloc errno pgm fp).pgm.maxVal)
      ∧ (∀ row column v r pgm1, SetPGMPixel pgm row column v = some (r, pgm1) →
          pgm.maxVal ≤ pgm1.maxVal)
      ∧ (∀ row column v r pgm1, SetPGMPixelNormalized pgm row column v = some (r, pgm1) →
          pgm1.maxVal = pgm.maxVal)
      ∧ (∀ m, (SetPGMMaxVal pgm m).maxVal = m)
      ∧ (∀ m pgm1, NormalizePGMToNewMaxVal pgm m = some pgm1 → pgm1.maxVal = m)
      ∧ (∀ w h m, (InitPGM alloc pgm w h m).pgm.maxVal = m) := by
  refine ⟨fun fp h => ReadPGM_maxVal alloc errno pgm fp h, ?_, ?_, fun _ => rfl, ?_, ?_⟩
  · intro row column v r pgm1 h
    unfold SetPGMPixel at h
    split at h
    · simp only [Option.some.injEq, Prod.mk.injEq] at h
      rw [← h.2]
    · simp only at h
      split at h
      · split at h
        · rename_i hgt
          simp only [Option.some.injEq, Prod.mk.injEq] at h
          rw [← h.2]
          simp only at hgt ⊢
          omega
        · simp only [Option.some.injEq, Prod.mk.injEq] at h
          rw [← h.2]
      · exact absurd h (by simp)
  · intro row column v r pgm1 h
    unfold SetPGMPixelNormalized at h
    split at h
    · simp only [Option.some.injEq, Prod.mk.injEq] at h
      rw [← h.2]
    · simp only at h
      split at h
      · exact absurd h (by simp)
      · split at h
        · simp only [Option.some.injEq, Prod.mk.injEq] at h
          rw [← h.2]
        · exact absurd h (by simp)
  · intro m pgm1 h
    unfold NormalizePGMToNewMaxVal at h
    simp only at h
    split at h
    · exact absurd h (by simp)
    · simp only [Option.some.injEq] at h
      rw [← h]
  · intro w h m
    unfold InitPGM
    simp only
    split <;> rfl

/-- Witness of C16: `SetPGMPixel` at an accepted coordinate of a 1x1 image
kept in a ten-cell array raises `maxVal` from 5 to 7. -/
theorem C16_maxVal_invariant_witness :
    (5 : Nat) ≤ (⟨[0, 0, 0, 0, 7, 0, 0, 0, 0, 0], 1, 1, 7⟩ : PGM).maxVal :=
  (C16_maxVal_invariant (fun _ => true) 0 ⟨[0, 0, 0, 0, 0, 0, 0, 0, 0, 0], 1, 1, 5⟩).2.1
    2 2 7 0 ⟨[0, 0, 0, 0, 7, 0, 0, 0, 0, 0], 1, 1, 7⟩ (by decide)

/-- The range property of the rescaling on a buffer whose size computation is
exact.  For every buffer with as many samples as `width * height` (below
`2^31`), with `maxVal` M, `1 <= M <= 65535`, in which every sample is at most
M, and every new maximum K up to 65535: `NormalizePGMToNewMaxVal(pgm, K)`
completes and afterwards every sample is at most K, the new `maxVal`, with the
product `sample * K` wrapping modulo `2^32` in `int` and the quotient stored
into a `uint16_t` as in the code. -/
theorem NormalizePGMToNewMaxVal_range (pgm : PGM) (K : Nat)
    (hM1 : 1 ≤ pgm.maxVal) (hM : pgm.maxVal ≤ 65535) (hK : K ≤ 65535)
    (hs : ∀ x ∈ pgm.data, x ≤ pgm.maxVal)
    (hlen : pgm.data.length = pgm.width * pgm.height)
    (hsz : pgm.width * pgm.height < 2 ^ 31) :
    ∃ pgm1, NormalizePGMToNewMaxVal pgm K = some pgm1
      ∧ (∀ x ∈ pgm1.data, x ≤ K)
      ∧ pgm1.maxVal = K
      ∧ pgm1.data.length = pgm.data.length := by
  have h31 : (2 : Nat) ^ 31 = 2147483648 := by norm_num
  rw [h31] at hsz
  refine ⟨_, NormalizePGMToNewMaxVal_exact pgm K (by omega) hlen hsz, ?_, rfl,
    List.length_map _ _⟩
  intro y hy
  simp only [List.mem_map] at hy
  obtain ⟨x, hx, rfl⟩ := hy
  exact rescaled_le pgm.maxVal K x hM1 hM hK (hs x hx)

/-- An instance of the range property: a 1x2 buffer with samples
`[40000, 65535]` and `maxVal` 65535 rescaled to 65535; both products wrap. -/
theorem NormalizePGMToNewMaxVal_range_example :
    ∃ pgm1, NormalizePGMToNewMaxVal ⟨[40000, 65535], 1, 2, 65535⟩ 65535 = some pgm1
      ∧ (∀ x ∈ pgm1.data, x ≤ 65535)
      ∧ pgm1.maxVal = 65535
      ∧ pgm1.data.length = 2 :=
  NormalizePGMToNewMaxVal_range ⟨[40000, 65535], 1, 2, 65535⟩ 65535 (by decide) (by decide)
    (by decide) (by decide) (by decide) (by decide)

/-- C19, at the failing input.  A 65535 x 65535 buffer with `maxVal` 1 holds
4294836225 samples, all 0, each at most `maxVal`.  In
`NormalizePGMToNewMaxVal(pgm, 1)` the `int` product `width * height` wraps to
-131071, the loop bound `size` becomes 18446744073709420545, and the loop runs
past the last sample instead of ending with every sample at most the new
`maxVal`. -/
theorem C19_rescale_size_overflow :
    (∀ x ∈ List.replicate 4294836225 0, x ≤ 1)
      ∧ (List.replicate 4294836225 0).length = 65535 * 65535
      ∧ imageSize ⟨List.replicate 4294836225 0, 65535, 65535, 1⟩ = 18446744073709420545
      ∧ NormalizePGMToNewMaxVal ⟨List.replicate 4294836225 0, 65535, 65535, 1⟩ 1 = none := by
  have hsize : imageSize ⟨List.replicate 4294836225 0, 65535, 65535, 1⟩
      = 18446744073709420545 := by
    simp only [imageSize, wrapInt32, toSizeT]
    norm_num
    rfl
  refine ⟨?_, ?_, hsize, NormalizePGMToNewMaxVal_overrun _ _ ?_⟩
  · intro x hx
    rw [List.eq_of_mem_replicate hx]
    exact Nat.zero_le 1
  · rw [List.length_replicate]
  · rw [hsize]
    show (List.replicate 4294836225 0).length < 18446744073709420545
    rw [List.length_replicate]
    norm_num

/-! ## Headers with arbitrary digit strings -/

/-- Scanning a non-empty digit string whose value fits 16 bits: leading white
space is skipped, the value is returned, the stream is left at the first byte
after the digits. -/
theorem fscanfHu_digits (errno : Int) (ws ds rest : List Nat)
    (hne : ds ≠ []) (hd : ∀ d ∈ ds, isdigit d = true) (hv : digitsValue ds 0 < 65536)
    (hws : ∀ b ∈ ws, isspace b = true)
    (hr : ∀ b ∈ rest.head?, isdigit b = false) :
    fscanfHu errno (ws ++ (ds ++ rest)) = some (digitsValue ds 0, errno, rest) := by
  cases ds with
  | nil => exact absurd rfl hne
  | cons d tl =>
    have hd0 : isdigit d = true := hd d (List.mem_cons_self _ _)
    have hval : scanDigits (d :: tl ++ rest) 0 = (digitsValue (d :: tl) 0, rest) := by
      rw [scanDigits_append _ _ _ hd]
      exact scanDigits_stop rest _ hr
    have hsp : isspace d = false := isdigit_not_isspace d hd0
    have h45 : (d == 45) = false := by
      simp [isdigit] at hd0; simp; omega
    have h43 : (d == 43) = false := by
      simp [isdigit] at hd0; simp; omega
    unfold fscanfHu
    rw [dropWhile_isspace_append ws _ hws]
    simp only [List.cons_append] at hval
    simp only [List.cons_append, List.dropWhile_cons, hsp]
    simp only [h45, h43, hd0, hval, Bool.or_self, Bool.false_eq_true, if_false, if_true]
    rw [if_neg (by omega), Nat.mod_eq_of_lt hv]

/-- The header loop over a run of white space followed by a digit: it stops
inside the run or at the digit, and what it leaves is again white space
followed by the digit. -/
theorem skipHeaderSpace_isspace (ws rest : List Nat) (d : Nat)
    (hws : ∀ b ∈ ws, isspace b = true) (hd : isdigit d = true) :
    ∃ ws1, (∀ b ∈ ws1, isspace b = true)
      ∧ skipHeaderSpace (ws ++ d :: rest) = some (ws1 ++ d :: rest) := by
  induction ws with
  | nil =>
    exact ⟨[], by simp, skipHeaderSpace_blanks [] rest d (by simp) hd⟩
  | cons b ws ih =>
    have hb : isspace b = true := hws b (List.mem_cons_self _ _)
    have hws1 : ∀ x ∈ ws, isspace x = true := fun x hx => hws x (List.mem_cons_of_mem _ hx)
    obtain ⟨ws1, h1, h2⟩ := ih hws1
    simp only [isspace, Bool.or_eq_true, beq_iff_eq, Bool.and_eq_true, decide_eq_true_eq] at hb
    by_cases hblank : b = 32 ∨ b = 9 ∨ b = 10 ∨ b = 13
    · refine ⟨ws1, h1, ?_⟩
      simp only [List.cons_append, skipHeaderSpace, toChar, EOF]
      rw [if_neg (by omega), if_pos (by omega)]
      exact h2
    · refine ⟨b :: ws, hws, ?_⟩
      simp only [List.cons_append, skipHeaderSpace, toChar, EOF, ungetc]
      rw [if_neg (by omega), if_neg (by omega)]
      congr 2
      omega

theorem readByteLoop_take (errno : Int) (n : Nat) (bs acc : List Nat)
    (h : n ≤ bs.length) : readByteLoop errno n bs acc = (0, acc ++ bs.take n) := by
  induction n generalizing bs acc with
  | zero => simp [readByteLoop]
  | succ n ih =>
    cases bs with
    | nil => simp at h
    | cons b bs =>
      simp only [List.length_cons, Nat.add_le_add_iff_right] at h
      simp only [readByteLoop, List.take_succ_cons]
      rw [ih bs _ h]
      simp

/-- Decoding of a header whose fields are arbitrary digit strings separated by
white space, the maximum value followed by one byte that is not a digit: the
three values are stored and the sample decoder of the variant is entered on
the bytes after that byte. -/
theorem readPGMMetadata_digits (alloc : Nat → Bool) (errno : Int) (pgm : PGM)
    (type : PGMType) (ws0 ws1 ws2 dw dh dm body : List Nat) (b : Nat)
    (h0 : ∀ x ∈ ws0, isspace x = true)
    (h1 : ∀ x ∈ ws1, isspace x = true) (n1 : ws1 ≠ [])
    (h2 : ∀ x ∈ ws2, isspace x = true) (n2 : ws2 ≠ [])
    (hdw : ∀ d ∈ dw, isdigit d = true) (nw : dw ≠ [])
    (hdh : ∀ d ∈ dh, isdigit d = true) (nh : dh ≠ [])
    (hdm : ∀ d ∈ dm, isdigit d = true) (nm : dm ≠ [])
    (hw : digitsValue dw 0 < 65536) (hh : digitsValue dh 0 < 65536)
    (hm1 : 1 ≤ digitsValue dm 0) (hm : digitsValue dm 0 < 65536)
    (hb : isdigit b = false) :
    readPGMMetadata alloc errno pgm
        (ws0 ++ (dw ++ (ws1 ++ (dh ++ (ws2 ++ (dm ++ b :: body)))))) type
      = if type = PGMType.P2 then
          readPGMAsciiData alloc errno
            ⟨pgm.data, digitsValue dw 0, digitsValue dh 0, digitsValue dm 0⟩ body
        else
          readPGMBinaryData alloc errno
            ⟨pgm.data, digitsValue dw 0, digitsValue dh 0, digitsValue dm 0⟩ body := by
  obtain ⟨d, tl, rfl⟩ : ∃ d tl, dw = d :: tl := by
    cases dw with
    | nil => exact absurd rfl nw
    | cons d tl => exact ⟨d, tl, rfl⟩
  have hd : isdigit d = true := hdw d (List.mem_cons_self _ _)
  obtain ⟨ws, hws, hskip⟩ := skipHeaderSpace_isspace ws0
    (tl ++ (ws1 ++ (dh ++ (ws2 ++ (dm ++ b :: body))))) d h0 hd
  have e1 := fscanfHu_digits errno ws (d :: tl) (ws1 ++ (dh ++ (ws2 ++ (dm ++ b :: body))))
    nw hdw hw hws (head_not_digit_of_blanks ws1 _ n1 h1)
  have e2 := fscanfHu_digits errno ws1 dh (ws2 ++ (dm ++ b :: body)) nh hdh hh h1
    (head_not_digit_of_blanks ws2 _ n2 h2)
  have e3 := fscanfHu_digits errno ws2 dm (b :: body) nm hdm hm h2
    (head_cons_not_digit b body hb)
  generalize digitsValue (d :: tl) 0 = w at *
  generalize digitsValue dh 0 = h at *
  generalize digitsValue dm 0 = m at *
  have hm0 : ¬ m = 0 := by omega
  have h8 : ¬ (((b : Nat) : Int) = EOF) := by unfold EOF; omega
  simp only [List.cons_append] at hskip e1
  simp only [List.cons_append, readPGMMetadata, hskip, e1, e2, e3, hm0, getc, h8, if_false]

/-- Decoding of a binary stream with 8-bit samples whose header fields are
arbitrary digit strings separated by white space, whose maximum value is
followed by one byte that is not a digit, and whose data holds at least
`width * height` bytes. -/
theorem ReadPGM_binary_header (alloc : Nat → Bool) (errno : Int) (pgm0 : PGM)
    (ws0 ws1 ws2 dw dh dm data : List Nat) (b : Nat)
    (h0 : ∀ x ∈ ws0, isspace x = true)
    (h1 : ∀ x ∈ ws1, isspace x = true) (n1 : ws1 ≠ [])
    (h2 : ∀ x ∈ ws2, isspace x = true) (n2 : ws2 ≠ [])
    (hdw : ∀ d ∈ dw, isdigit d = true) (nw : dw ≠ [])
    (hdh : ∀ d ∈ dh, isdigit d = true) (nh : dh ≠ [])
    (hdm : ∀ d ∈ dm, isdigit d = true) (nm : dm ≠ [])
    (hw : digitsValue dw 0 < 65536) (hh : digitsValue dh 0 < 65536)
    (hm1 : 1 ≤ digitsValue dm 0) (hm : digitsValue dm 0 ≤ 255)
    (hb : isdigit b = false)
    (hsz : digitsValue dw 0 * digitsValue dh 0 < 2147483648)
    (hdata : digitsValue dw 0 * digitsValue dh 0 ≤ data.length)
    (halloc : alloc (2 * (digitsValue dw 0 * digitsValue dh 0)) = true) :
    ReadPGM alloc errno pgm0
        (80 :: 53 :: (ws0 ++ (dw ++ (ws1 ++ (dh ++ (ws2 ++ (dm ++ b :: data)))))))
      = ⟨0, ⟨data.take (digitsValue dw 0 * digitsValue dh 0),
          digitsValue dw 0, digitsValue dh 0, digitsValue dm 0⟩⟩ := by
  have hhdr := readPGMMetadata_digits alloc errno pgm0 PGMType.P5 ws0 ws1 ws2 dw dh dm data b
    h0 h1 n1 h2 n2 hdw nw hdh nh hdm nm hw hh hm1 (by omega) hb
  generalize digitsValue dw 0 = w at *
  generalize digitsValue dh 0 = h at *
  generalize digitsValue dm 0 = m at *
  have hsz2 : imageSize ⟨pgm0.data, w, h, m⟩ = w * h := imageSize_eq ⟨pgm0.data, w, h, m⟩ hsz
  unfold ReadPGM
  simp only [getc, toChar, EOF]
  rw [if_neg (by decide), if_neg (by decide), if_neg (by decide), if_pos (by decide), hhdr]
  simp only [reduceCtorEq, if_false]
  unfold readPGMBinaryData
  simp only [hsz2, UINT8_MAX]
  rw [Nat.mod_eq_of_lt (by omega), halloc]
  simp only [if_true]
  rw [if_neg (by omega), readByteLoop_take errno _ _ _ hdata]
  simp

/-! ## The separator byte and the zero-width encoder -/

theorem writeAsciiCells_nil (base n j : Nat) (out : List Nat) (hn : 0 < n) :
    writeAsciiCells [] base n j out = none := by
  cases n with
  | zero => omega
  | succ n => simp [writeAsciiCells]

/-- C17, refuted as stated.  In the stream `P5\n2 2\n25` + `5` + the four data
bytes 1, 2, 3, 4 the single byte after the maximum value 25 is the digit `5`:
it is read as a third digit of the maximum value, the byte consumed after the
header is the first data byte, and the buffer ends with `maxVal` 255 and the
three samples 2, 3, 4 instead of `maxVal` 25 and the samples 1, 2, 3, 4. -/
theorem C17_separator_digit_counterexample :
    ReadPGM (fun _ => true) 0 ⟨[], 0, 0, 0⟩
        ([80, 53, 10, 50, 32, 50, 10, 50, 53] ++ [53] ++ [1, 2, 3, 4])
        = ⟨0, ⟨[2, 3, 4], 2, 2, 255⟩⟩
      ∧ ReadPGM (fun _ => true) 0 ⟨[], 0, 0, 0⟩
          ([80, 53, 10, 50, 32, 50, 10, 50, 53] ++ [53] ++ [1, 2, 3, 4])
        ≠ ⟨0, ⟨[1, 2, 3, 4], 2, 2, 25⟩⟩ := by
  decide

/-- C17, amended.  For every binary stream made of `P5`, white space, the
digits of the width, white space, the digits of the height, white space, the
digits of a maximum value between 1 and 255, one byte `b` that is not a
decimal digit, and data of at least `width * height` bytes (`width * height`
below `2^31`, the allocation granted): `ReadPGM` returns 0 whatever the class
of `b`, consumes exactly that one byte, and the decoded samples are the first
`width * height` bytes of the data, each zero-extended to 16 bits, also when
the data begins with white-space bytes. -/
theorem C17_separator_byte (alloc : Nat → Bool) (errno : Int) (pgm0 : PGM)
    (ws0 ws1 ws2 dw dh dm data : List Nat) (b : Nat)
    (h0 : ∀ x ∈ ws0, isspace x = true)
    (h1 : ∀ x ∈ ws1, isspace x = true) (n1 : ws1 ≠ [])
    (h2 : ∀ x ∈ ws2, isspace x = true) (n2 : ws2 ≠ [])
    (hdw : ∀ d ∈ dw, isdigit d = true) (nw : dw ≠ [])
    (hdh : ∀ d ∈ dh, isdigit d = true) (nh : dh ≠ [])
    (hdm : ∀ d ∈ dm, isdigit d = true) (nm : dm ≠ [])
    (hw : digitsValue dw 0 < 65536) (hh : digitsValue dh 0 < 65536)
    (hm1 : 1 ≤ digitsValue dm 0) (hm : digitsValue dm 0 ≤ 255)
    (hb : isdigit b = false)
    (hsz : digitsValue dw 0 * digitsValue dh 0 < 2 ^ 31)
    (hdata : digitsValue dw 0 * digitsValue dh 0 ≤ data.length)
    (halloc : alloc (2 * (digitsValue dw 0 * digitsValue dh 0)) = true) :
    ReadPGM alloc errno pgm0
        ([80, 53] ++ ws0 ++ dw ++ ws1 ++ dh ++ ws2 ++ dm ++ [b] ++ data)
      = ⟨0, ⟨data.take (digitsValue dw 0 * digitsValue dh 0),
          digitsValue dw 0, digitsValue dh 0, digitsValue dm 0⟩⟩ := by
  have h31 : (2 : Nat) ^ 31 = 2147483648 := by norm_num
  rw [h31] at hsz
  have hs : [80, 53] ++ ws0 ++ dw ++ ws1 ++ dh ++ ws2 ++ dm ++ [b] ++ data
      = 80 :: 53 :: (ws0 ++ (dw ++ (ws1 ++ (dh ++ (ws2 ++ (dm ++ b :: data)))))) := by
    simp
  rw [hs]
  exact ReadPGM_binary_header alloc errno pgm0 ws0 ws1 ws2 dw dh dm data b h0 h1 n1 h2 n2
    hdw nw hdh nh hdm nm hw hh hm1 hm hb hsz hdata halloc

/-- Witness of C17: the stream `P5`, space and tab, `2`, two newlines, `2`,
space, `7`, a NUL byte, then the data bytes 32, 10, 9, 200, 5, which begin
with white space. -/
theorem C17_separator_byte_witness :
    ReadPGM (fun _ => true) 0 ⟨[], 0, 0, 0⟩
        ([80, 53] ++ [32, 9] ++ [50] ++ [10, 10] ++ [50] ++ [32] ++ [55] ++ [0]
          ++ [32, 10, 9, 200, 5])
      = ⟨0, ⟨[32, 10, 9, 200], 2, 2, 7⟩⟩ :=
  C17_separator_byte (fun _ => true) 0 ⟨[], 0, 0, 0⟩ [32, 9] [10, 10] [32] [50] [50] [55]
    [32, 10, 9, 200, 5] 0 (by decide) (by decide) (by decide) (by decide) (by decide)
    (by decide) (by decide) (by decide) (by decide) (by decide) (by decide) (by decide)
    (by decide) (by decide) (by decide) (by decide) (by decide) (by decide) rfl

/-- C20. The zero-width case of the ASCII encoder: for a buffer with width 0,
a height of at least 1 and no samples, the inner loop bound
`(uint16_t)(width - 1)` is 65535 and the index `width * (i + 1) - 1` wraps to
`2^64 - 1`, so the first read, at index 0, is already outside the empty array
and no row is written.  For every buffer with a width of at least 1 and as
many samples as `width * height`, every index that the encoder reads is below
`width * height` and the encoder completes. -/
theorem C20_ascii_indices (pgm : PGM) :
    (pgm.width = 0 → 1 ≤ pgm.height → pgm.data = [] →
        (65535 + pgm.width) % 65536 = 65535
          ∧ (∀ i, (18446744073709551615 + (i + 1) * pgm.width) % 18446744073709551616
              = 18446744073709551615)
          ∧ pgm.data[(0 * pgm.width % 18446744073709551616 + 0)
              % 18446744073709551616]? = none
          ∧ writePGMAscii pgm = none)
      ∧ (1 ≤ pgm.width → pgm.InRange → pgm.data.length = pgm.width * pgm.height →
          (∀ i j, i < pgm.height → j < (65535 + pgm.width) % 65536 →
              (i * pgm.width % 18446744073709551616 + j) % 18446744073709551616
                < pgm.width * pgm.height)
            ∧ (∀ i, i < pgm.height →
              (18446744073709551615 + (i + 1) * pgm.width) % 18446744073709551616
                < pgm.width * pgm.height)
            ∧ ∃ out, writePGMAscii pgm = some (0, out)) := by
  constructor
  · intro hw hh hd
    refine ⟨by rw [hw], fun i => by rw [hw, Nat.mul_zero], by rw [hd]; rfl, ?_⟩
    obtain ⟨n, hn⟩ : ∃ n, pgm.height = n + 1 := ⟨pgm.height - 1, by omega⟩
    unfold writePGMAscii
    rw [hn]
    simp only [writeAsciiRows, writeAsciiRow, hd, hw]
    rw [writeAsciiCells_nil _ _ _ _ (by norm_num)]
  · intro hw1 hty hlen
    obtain ⟨hw, hh, _, _⟩ := hty
    have hmul : ∀ i, i < pgm.height → (i + 1) * pgm.width ≤ pgm.width * pgm.height := by
      intro i hi
      rw [Nat.mul_comm pgm.width pgm.height]
      exact Nat.mul_le_mul_right _ hi
    have hbig : pgm.width * pgm.height < 18446744073709551616 := by
      calc pgm.width * pgm.height < 65536 * 65536 :=
            Nat.mul_lt_mul_of_lt_of_le hw (le_of_lt hh) (by omega)
        _ < 18446744073709551616 := by norm_num
    refine ⟨?_, ?_, _, writePGMAscii_layout pgm hw1 hw hh hlen⟩
    · intro i j hi hj
      have := hmul i hi
      rw [Nat.succ_mul] at this
      generalize i * pgm.width = a at *
      omega
    · intro i hi
      have := hmul i hi
      have hge : pgm.width ≤ (i + 1) * pgm.width := Nat.le_mul_of_pos_left _ (Nat.succ_pos i)
      generalize (i + 1) * pgm.width = a at *
      omega

/-- Witness of C20: the buffer of width 0 and height 3 without samples, and
the 2x2 buffer `[0, 128, 255, 64]`. -/
theorem C20_ascii_indices_witness :
    writePGMAscii ⟨[], 0, 3, 5⟩ = none
      ∧ ∃ out, writePGMAscii ⟨[0, 128, 255, 64], 2, 2, 255⟩ = some (0, out) :=
  ⟨((C20_ascii_indices ⟨[], 0, 3, 5⟩).1 rfl (by decide) rfl).2.2.2,
   ((C20_ascii_indices ⟨[0, 128, 255, 64], 2, 2, 255⟩).2 (by decide) (by decide)
      (by decide)).2.2⟩

/-! ## Normalized accessors on an accepted cell -/

/-- An accepted `GetPGMPixelNormalized` on a cell of the array outputs the
rescaling of that cell from `maxVal` to 65535. -/
theorem GetPGMPixelNormalized_eq (pgm : PGM) (row column : Int) (x : Nat)
    (hacc : rejects pgm row column = false)
    (hx : pgm.data[(pixelIndex pgm row column).toNat]? = some x)
    (hM : pgm.maxVal ≠ 0) :
    GetPGMPixelNormalized pgm row column = some (0, some (rescaled pgm.maxVal 65535 x)) := by
  unfold GetPGMPixelNormalized
  simp only [hacc, Bool.false_eq_true, if_false, hx, UINT16_MAX]
  have h := RENORMALIZE_rescaled pgm.maxVal 65535 x hM
  simp only [Nat.cast_ofNat] at h
  simp only [h]
  rfl

/-- An accepted `SetPGMPixelNormalized` on a cell of the array stores the
rescaling of its argument from 65535 to `maxVal` and changes nothing else. -/
theorem SetPGMPixelNormalized_eq (pgm : PGM) (row column : Int) (v : Nat)
    (hacc : rejects pgm row column = false)
    (hidx : (pixelIndex pgm row column).toNat < pgm.data.length) :
    SetPGMPixelNormalized pgm row column v
      = some (0, { pgm with
          data := pgm.data.set (pixelIndex pgm row column).toNat
            (rescaled 65535 pgm.maxVal v) }) := by
  unfold SetPGMPixelNormalized
  simp only [hacc, Bool.false_eq_true, if_false, UINT16_MAX]
  have h := RENORMALIZE_rescaled 65535 pgm.maxVal v (by decide)
  simp only [Nat.cast_ofNat] at h
  simp only [h, hidx, if_true]
  rfl

/-- Below the overflow of the product the normalized read is the truncated
quotient `floor(s * 65535 / M)`. -/
theorem rescaled_read_exact (M s : Nat) (hs : s ≤ M) (h : s ≤ 32768) :
    rescaled M 65535 s = s * 65535 / M :=
  rescaled_exact_of_le M 65535 s (by omega) hs (by decide)

end Pgm
